import Mathlib

/-!
Verification of a Markov-chain sentence generator (`src/main.py`).

The program loads a word-transition table from a `/`-separated text fixture
and searches for the highest-probability word chain matching a target
part-of-speech sequence, under one of three strategies: `breadth_first`
(FIFO frontier), `depth_first` (LIFO frontier) and `heuristic` (a min-heap
on the node records, whose leading field is the negated discounted
cumulative probability).

Modelling conventions:
* Python floats are modelled as rationals (`ℚ`); `float()` on the
  probability field is a partial parser of Python's accepted numeric text
  (whitespace, sign, digit underscores, exponent) whose failure models the
  `ValueError` the program lets propagate; `str()` rendering of numbers is
  modelled by `toString` on `ℚ`/`ℕ`.
* Python's `str.split` on a one-character separator (the only form the
  program uses) and `str.lower` are modelled by the structurally recursive
  `pySplit` and `pyLower` over the string's character list.
* The nested `dict`s built with `setdefault` are modelled as nested
  association lists; `heapq` is modelled by extraction of the minimum
  element under the tuple (lexicographic) order on node records, which is
  total, so the choice of minimum is unique up to equality of records.
* The `while nodes != []` loop is modelled by a fuelled iteration
  `searchLoopF`; `searchLoopF_isSome` proves the fuel used by `runSearch`
  always suffices, so `runSearch` is the loop's real result.
* Fallible operations (list indexing in the loader, formatting a missing
  best result) return `Option`; `none` models the Python exception.
-/

namespace SentenceGen

/-- Splits a character list at every occurrence of `sep`, keeping empty
segments, as Python `str.split(sep)` does for a one-character separator. -/
def splitCharList (sep : Char) : List Char → List (List Char)
  | [] => [[]]
  | c :: cs =>
    match splitCharList sep cs with
    | [] => if c = sep then [[], []] else [[c]]
    | h :: t => if c = sep then [] :: h :: t else (c :: h) :: t

/-- Model of Python `s.split(sep)` for a one-character separator. -/
def pySplit (s : String) (sep : Char) : List String :=
  (splitCharList sep s.data).map String.mk

/-- Model of Python `s.lower()`. -/
def pyLower (s : String) : String :=
  String.mk (s.data.map Char.toLower)

/-- Model of `InputWord = collections.namedtuple('InputWord', 'word type')`. -/
structure InputWord where
  word : String
  type : String
deriving DecidableEq, Repr

/-- Model of `NextInfo = collections.namedtuple('NextInfo', 'word percent')`. -/
structure NextInfo where
  word : String
  percent : ℚ
deriving DecidableEq, Repr

/-- Innermost level of the transition table: next word type to transitions. -/
abbrev TypeMap2 := List (String × List NextInfo)

/-- Middle level: starting word type to the inner map. -/
abbrev TypeMap1 := List (String × TypeMap2)

/-- The transition table `nexts`: starting word to the middle map. -/
abbrev Nexts := List (String × TypeMap1)

/-- Association-list lookup, modelling Python `dict` indexing. -/
def alistGet {α : Type} : List (String × α) → String → Option α
  | [], _ => none
  | (k', v) :: rest, k => if k' = k then some v else alistGet rest k

/-- Association-list update, modelling Python `dict` assignment. -/
def alistSet {α : Type} : List (String × α) → String → α → List (String × α)
  | [], k, v => [(k, v)]
  | (k', v') :: rest, k, v =>
      if k' = k then (k, v) :: rest else (k', v') :: alistSet rest k v

/-- The components of a parsed Python float literal: sign, integer part,
fractional part with its digit count, and signed decimal exponent. -/
structure PyFloatParts where
  neg : Bool
  intVal : ℕ
  fracVal : ℕ
  fracLen : ℕ
  expNeg : Bool
  expVal : ℕ
deriving DecidableEq, Repr

/-- Characters Python's `float()` strips around the numeric text. -/
def isPySpace (c : Char) : Bool :=
  c = ' ' || c = '\t' || c = '\n' || c = '\r' || c = '\x0b' || c = '\x0c'

/-- Strips the surrounding whitespace `float()` tolerates. -/
def stripPySpace (cs : List Char) : List Char :=
  ((cs.dropWhile isPySpace).reverse.dropWhile isPySpace).reverse

/-- Consumes an optional leading sign; returns whether it was a minus. -/
def parseSign : List Char → Bool × List Char
  | '+' :: cs => (false, cs)
  | '-' :: cs => (true, cs)
  | cs => (false, cs)

/-- Continues a digit run in which a single underscore may stand between
two digits, as Python number syntax allows; returns the accumulated
value, the digit count and the unconsumed rest. -/
def digitsUAux : ℕ → ℕ → List Char → ℕ × ℕ × List Char
  | v, n, c :: c2 :: cs =>
    if c.isDigit then digitsUAux (v * 10 + (c.toNat - 48)) (n + 1) (c2 :: cs)
    else if c = '_' && c2.isDigit then
      digitsUAux (v * 10 + (c2.toNat - 48)) (n + 1) cs
    else (v, n, c :: c2 :: cs)
  | v, n, [c] => if c.isDigit then (v * 10 + (c.toNat - 48), n + 1, []) else (v, n, [c])
  | v, n, [] => (v, n, [])

/-- A digit run (with inner underscores) that must start with a digit. -/
def digitsU : List Char → Option (ℕ × ℕ × List Char)
  | c :: cs => if c.isDigit then some (digitsUAux (c.toNat - 48) 1 cs) else none
  | [] => none

/-- The mantissa of a float literal: digits, a dot with digits on at
least one side, or both; fails when no digit is present. -/
def parseMantissa (cs : List Char) : Option (ℕ × ℕ × ℕ × List Char) :=
  match digitsU cs with
  | some (iv, _, rest) =>
    match rest with
    | '.' :: rest2 =>
      match digitsU rest2 with
      | some (fv, fn, rest3) => some (iv, fv, fn, rest3)
      | none => some (iv, 0, 0, rest2)
    | _ => some (iv, 0, 0, rest)
  | none =>
    match cs with
    | '.' :: rest2 =>
      match digitsU rest2 with
      | some (fv, fn, rest3) => some (0, fv, fn, rest3)
      | none => none
    | _ => none

/-- Full parse of the text `float()` accepts for a finite value: optional
whitespace and sign, a decimal mantissa, an optional `e`/`E` exponent
with its own sign, and nothing else. -/
def parseFloatParts (cs0 : List Char) : Option PyFloatParts :=
  let cs1 := stripPySpace cs0
  let sr := parseSign cs1
  match parseMantissa sr.2 with
  | none => none
  | some (iv, fv, fn, rest) =>
    match rest with
    | [] => some ⟨sr.1, iv, fv, fn, false, 0⟩
    | c :: cs3 =>
      if c = 'e' || c = 'E' then
        let er := parseSign cs3
        match digitsU er.2 with
        | some (ev, _, []) => some ⟨sr.1, iv, fv, fn, er.1, ev⟩
        | _ => none
      else none

/-- Exact rational value of a parsed float literal: sign times mantissa
times the power of ten named by the exponent. -/
def partsVal (p : PyFloatParts) : ℚ :=
  (if p.neg then -1 else 1) *
    (((p.intVal : ℚ) + (p.fracVal : ℚ) / (10 : ℚ) ^ p.fracLen) *
      (if p.expNeg then ((10 : ℚ) ^ p.expVal)⁻¹ else (10 : ℚ) ^ p.expVal))

/-- Model of Python `float(...)` on the probability field: `none` is the
`ValueError` the program lets propagate on non-numeric text.  Values
are exact rationals per the module's float-as-rational convention, over
the ASCII text of the input format; spellings of non-finite floats
(inf/nan), which no rational can represent and which never occur in the
probability field of a transition record, are also mapped to the fault
case. -/
def float (s : String) : Option ℚ := (parseFloatParts s.data).map partsVal

/-- Parsed value of a known-good probability field, used to write the
expected tables of concrete fixtures. -/
def floatD (s : String) : ℚ := (float s).getD 0

/-- The three `setdefault` calls plus the `append` of `processInput`,
lines 44-47 of `main.py`: get-or-create the nested maps at
`[w1.word][w1.type][w2.type]` and append `info` to the list there. -/
def insertNexts (nexts : Nexts) (w1 : InputWord) (w2 : InputWord) (info : NextInfo) : Nexts :=
  let m1 := (alistGet nexts w1.word).getD []
  let m2 := (alistGet m1 w1.type).getD []
  let lst := (alistGet m2 w2.type).getD []
  alistSet nexts w1.word (alistSet m1 w1.type (alistSet m2 w2.type (lst ++ [info])))

/-- Field extraction of one record, `main.py` lines 40-47.  Python raises
`IndexError` on a short record and `ValueError` on a non-numeric
probability field; both faults are the `none` case. -/
def processParts (nexts : Nexts) (parts : List String) : Option Nexts := do
  let w1 : InputWord := ⟨← parts.get? 0, ← parts.get? 1⟩
  let w2 : InputWord := ⟨← parts.get? 3, ← parts.get? 4⟩
  let percent ← float (← parts.get? 6)
  some (insertNexts nexts w1 w2 ⟨w2.word, percent⟩)

/-- One line of the loader loop (`main.py` lines 38-47): skip the empty
line, otherwise split on `/` and insert the record. -/
def processLine (nexts : Nexts) (line : String) : Option Nexts :=
  if line = "" then some nexts else processParts nexts (pySplit line '/')

/-- The loader `processInput` (`main.py` lines 35-48). -/
def processInput (text : String) : Option Nexts :=
  (pySplit text '\n').foldlM processLine []

/-- The lookup `nexts[word][type1][type2]` guarded by `try/except KeyError`
(lines 73-87): a missing key at any level yields the empty list. -/
def lookupNexts (nexts : Nexts) (w t1 t2 : String) : List NextInfo :=
  match alistGet nexts w with
  | none => []
  | some m1 =>
    match alistGet m1 t1 with
    | none => []
    | some m2 => (alistGet m2 t2).getD []

/-- Model of `Sentence = collections.namedtuple('Sentence', 'string percent length')`. -/
structure Sentence where
  string : String
  percent : ℚ
  length : ℕ
deriving DecidableEq, Repr

/-- Model of `Node = collections.namedtuple('Node', 'weighting word depth sentence')`. -/
structure Node where
  weighting : ℚ
  word : String
  depth : ℕ
  sentence : Sentence
deriving DecidableEq, Repr

/-- The constant `HEURISTIC_BEST_GUESS = 1.0` (line 17). -/
def HEURISTIC_BEST_GUESS : ℚ := 1

/-- The helper `heuristic_value` (lines 67-68): the guess raised to the number of
remaining transitions, computed from the parent node's depth. -/
def heuristic_value (sentenceSpec : List String) (base : ℚ) (node : Node) : ℚ :=
  base ^ ((sentenceSpec.length : ℤ) - ((node.depth : ℤ) + 1))

/-- The child record built inside `generateNextNodes` (lines 75-84). -/
def childNode (sentenceSpec : List String) (node : Node) (next : NextInfo) : Node :=
  { weighting := -node.sentence.percent * next.percent *
      heuristic_value sentenceSpec HEURISTIC_BEST_GUESS node
    word := next.word
    depth := node.depth + 1
    sentence :=
      { string := node.sentence.string ++ " " ++ next.word
        percent := node.sentence.percent * next.percent
        length := node.sentence.length + 1 } }

/-- The expansion `generateNextNodes` (lines 70-88). -/
def generateNextNodes (nexts : Nexts) (sentenceSpec : List String) (node : Node) : List Node :=
  (lookupNexts nexts node.word (sentenceSpec.getD (node.depth - 1) "")
      (sentenceSpec.getD node.depth "")).map (childNode sentenceSpec node)

/-- Tuple (lexicographic) order on `Sentence`, as Python compares the
namedtuple `(string, percent, length)`. -/
def sentLe (a b : Sentence) : Bool :=
  if a.string < b.string then true
  else if b.string < a.string then false
  else if a.percent < b.percent then true
  else if b.percent < a.percent then false
  else a.length ≤ b.length

/-- Tuple (lexicographic) order on `Node`, as Python compares the
namedtuple `(weighting, word, depth, sentence)`; this is the order the
`heapq` functions use. -/
def nodeLe (a b : Node) : Bool :=
  if a.weighting < b.weighting then true
  else if b.weighting < a.weighting then false
  else if a.word < b.word then true
  else if b.word < a.word then false
  else if a.depth < b.depth then true
  else if b.depth < a.depth then false
  else sentLe a.sentence b.sentence

/-- Extraction of the minimum node under `nodeLe`, modelling `heappop` on
a frontier maintained by `heappush`. -/
def extractMin : List Node → Option (Node × List Node)
  | [] => none
  | n :: rest =>
    match extractMin rest with
    | none => some (n, [])
    | some (m, rest') => if nodeLe n m then some (n, rest) else some (m, n :: rest')

/-- The three recognised strategies (line 55). -/
inductive Strat where
  | breadth_first
  | depth_first
  | heuristic
deriving DecidableEq, Repr

/-- Strategy recognition after lowercasing (lines 54-56). -/
def stratOf (s : String) : Option Strat :=
  if s = "breadth_first" then some Strat.breadth_first
  else if s = "depth_first" then some Strat.depth_first
  else if s = "heuristic" then some Strat.heuristic
  else none

/-- Frontier removal per strategy (lines 92-98): FIFO front, LIFO back, or
heap minimum. -/
def popNode : Strat → List Node → Option (Node × List Node)
  | _, [] => none
  | Strat.breadth_first, n :: rest => some (n, rest)
  | Strat.depth_first, n :: rest =>
      some ((n :: rest).getLast (List.cons_ne_nil n rest), (n :: rest).dropLast)
  | Strat.heuristic, n :: rest => extractMin (n :: rest)

/-- The pruning test of line 101:
`bestSentence is not None and node.sentence.percent < bestSentence.percent`. -/
def isPruned (best : Option Sentence) (node : Node) : Bool :=
  match best with
  | none => false
  | some b => decide (node.sentence.percent < b.percent)

/-- The candidate-acceptance test of line 114:
`bestSentence is None or node.sentence.percent > bestSentence.percent`. -/
def updatesBest (best : Option Sentence) (node : Node) : Bool :=
  match best with
  | none => true
  | some b => decide (b.percent < node.sentence.percent)

/-- The mutable state of the search loop: the frontier `nodes`, the
current `bestSentence` and the counter `totalNodes`. -/
structure SState where
  nodes : List Node
  best : Option Sentence
  total : ℕ
deriving Repr

/-- The `while nodes != []` loop of lines 90-115, as a fuelled iteration;
`none` means the fuel ran out (shown impossible for the fuel used by
`runSearch`).  Each step pops a node per strategy, counts it, prunes it
(breaking the whole loop under `heuristic`), expands it when its depth is
below the target length, or records it as a candidate best. -/
def searchLoopF (strat : Strat) (nexts : Nexts) (sentenceSpec : List String) :
    ℕ → SState → Option (Option Sentence × ℕ)
  | 0, _ => none
  | fuel + 1, st =>
    match popNode strat st.nodes with
    | none => some (st.best, st.total)
    | some (node, rest) =>
      if isPruned st.best node then
        if strat = Strat.heuristic then some (st.best, st.total + 1)
        else searchLoopF strat nexts sentenceSpec fuel ⟨rest, st.best, st.total + 1⟩
      else if node.depth < sentenceSpec.length then
        searchLoopF strat nexts sentenceSpec fuel
          ⟨rest ++ generateNextNodes nexts sentenceSpec node, st.best, st.total + 1⟩
      else if updatesBest st.best node then
        searchLoopF strat nexts sentenceSpec fuel ⟨rest, some node.sentence, st.total + 1⟩
      else searchLoopF strat nexts sentenceSpec fuel ⟨rest, st.best, st.total + 1⟩

/-- Largest transition-list length appearing anywhere in the table, plus
helpers: a bound on the branching of the search used to size the fuel. -/
def foldMax {α : Type} (l : List α) (g : α → ℕ) (a : ℕ) : ℕ :=
  l.foldl (fun acc x => max acc (g x)) a

/-- Maximum transition-list length across the whole table. -/
def maxTransLen (nexts : Nexts) : ℕ :=
  foldMax nexts (fun p1 => foldMax p1.2 (fun p2 => foldMax p2.2 (fun p3 => p3.2.length) 0) 0) 0

/-- Termination weight of one frontier node. -/
def nodeMeasure (C L : ℕ) (n : Node) : ℕ := (C + 1) ^ (L - n.depth)

/-- Termination weight of a frontier. -/
def listMeasure (C L : ℕ) (l : List Node) : ℕ := (l.map (nodeMeasure C L)).sum

/-- The seed node of line 65. -/
def seedNode (startingWord : String) : Node :=
  ⟨0, startingWord, 1, ⟨startingWord, 1, 1⟩⟩

/-- Fuel sufficient to drive the loop to its natural termination. -/
def searchFuel (nexts : Nexts) (sentenceSpec : List String) (st : SState) : ℕ :=
  listMeasure (maxTransLen nexts) sentenceSpec.length st.nodes + 1

/-- The whole search of lines 60-115 for an already-parsed table: seeds the
frontier and runs the loop, returning the final best sentence and node
count. -/
def runSearch (strat : Strat) (nexts : Nexts) (sentenceSpec : List String)
    (startingWord : String) : Option Sentence × ℕ :=
  let st0 : SState := ⟨[seedNode startingWord], none, 0⟩
  (searchLoopF strat nexts sentenceSpec (searchFuel nexts sentenceSpec st0) st0).getD (none, 0)

/-- The result formatting of lines 116-117. -/
def formatResult (best : Sentence) (total : ℕ) : String :=
  "\"" ++ best.string ++ "\" with probability " ++ toString best.percent ++
    "\nTotal nodes considered: " ++ toString total

/-- Search plus formatting for a parsed table; `none` is the
`AttributeError` raised on line 116 when no best sentence was ever set. -/
def generateWith (startingWord : String) (sentenceSpec : List String) (strat : Strat)
    (nexts : Nexts) : Option String :=
  match runSearch strat nexts sentenceSpec startingWord with
  | (some best, total) => some (formatResult best total)
  | (none, _) => none

/-- The operation `generate` (lines 53-117): strategy gate, parse, search, format.
`none` models the runtime faults (parse failure or missing best). -/
def generate (startingWord : String) (sentenceSpec : List String) (strategy : String)
    (graph : String) : Option String :=
  match stratOf (pyLower strategy) with
  | none => some "invalid strategy"
  | some strat => (processInput graph).bind (generateWith startingWord sentenceSpec strat)

/-- All probabilities recorded in the table lie in the unit interval. -/
def ProbsIn01 (nexts : Nexts) : Prop :=
  ∀ p1 ∈ nexts, ∀ p2 ∈ p1.2, ∀ p3 ∈ p2.2, ∀ info ∈ p3.2,
    0 ≤ info.percent ∧ info.percent ≤ 1

instance (nexts : Nexts) : Decidable (ProbsIn01 nexts) := by
  unfold ProbsIn01
  infer_instance

/-- Reachability: `ReachFrom nexts spec n m` holds when frontier node `m` arises from `n`
by zero or more expansion steps of the search: each step turns a node of
depth below the target length into one of its `childNode`s along a
transition found by `lookupNexts`, exactly as `generateNextNodes` does. -/
inductive ReachFrom (nexts : Nexts) (spec : List String) : Node → Node → Prop where
  | refl (n : Node) : ReachFrom nexts spec n n
  | step {n m : Node} (info : NextInfo) (h : ReachFrom nexts spec n m)
      (hd : m.depth < spec.length)
      (hm : info ∈ lookupNexts nexts m.word (spec.getD (m.depth - 1) "")
        (spec.getD m.depth "")) :
      ReachFrom nexts spec n (childNode spec m info)

/-- A node is reachable in the search of `startingWord` when it arises from
the seed node by expansion steps. -/
def Reach (nexts : Nexts) (spec : List String) (startingWord : String) (m : Node) : Prop :=
  ReachFrom nexts spec (seedNode startingWord) m

/-- State invariant of the search loop, strong enough to give both
soundness (the best sentence is a genuinely reachable complete chain) and
optimality (no complete chain beats the final best). -/
structure LoopInv (nexts : Nexts) (spec : List String) (startingWord : String)
    (st : SState) : Prop where
  reach : ∀ n ∈ st.nodes, Reach nexts spec startingWord n
  depth_le : ∀ n ∈ st.nodes, n.depth ≤ spec.length
  nonneg : ∀ n ∈ st.nodes, 0 ≤ n.sentence.percent
  weight : ∀ n ∈ st.nodes, n.weighting = -n.sentence.percent ∨ st.nodes = [n]
  sound : ∀ b, st.best = some b →
    ∃ m, Reach nexts spec startingWord m ∧ m.depth = spec.length ∧ m.sentence = b
  opt : ∀ m, Reach nexts spec startingWord m → m.depth = spec.length →
    (∃ b, st.best = some b ∧ m.sentence.percent ≤ b.percent) ∨
    ∃ x ∈ st.nodes, ReachFrom nexts spec x m

/-- Fuel-indexed tree size; the fuel is the number of levels left. -/
def treeCountAux (nexts : Nexts) (spec : List String) : ℕ → String → ℕ → ℕ
  | 0, _, _ => 1
  | k + 1, w, d =>
    1 + ((lookupNexts nexts w (spec.getD (d - 1) "") (spec.getD d "")).map
      (fun info => treeCountAux nexts spec k info.word (d + 1))).sum

/-- Number of nodes in the full reachable search tree below a node holding
word `w` at depth `d`: the node itself plus, when `d` is below the target
length, the sizes of the trees below each child `generateNextNodes` would
produce.  No pruning is accounted for. -/
def treeCount (nexts : Nexts) (spec : List String) (w : String) (d : ℕ) : ℕ :=
  treeCountAux nexts spec (spec.length - d) w d

/-- A breadth-first frontier always holds nodes of at most two consecutive
depths, shallow ones first. -/
def TwoLevels (l : List Node) : Prop :=
  ∃ d A B, l = A ++ B ∧ (∀ a ∈ A, a.depth = d) ∧ (∀ b ∈ B, b.depth = d + 1)

/-- Fixture: two two-step paths of cumulative probabilities 0.3 and 0.7. -/
def gTwoPaths : String :=
  "s/A/0/x/B/1/0.3\ns/A/0/y/B/1/0.7\nx/B/0/e/C/1/1.0\ny/B/0/f/C/1/1.0"

/-- The table parsed from `gTwoPaths`. -/
def tblTwoPaths : Nexts :=
  [("s", [("A", [("B", [⟨"x", floatD "0.3"⟩, ⟨"y", floatD "0.7"⟩])])]),
   ("x", [("B", [("C", [⟨"e", floatD "1.0"⟩])])]),
   ("y", [("B", [("C", [⟨"f", floatD "1.0"⟩])])])]

/-- Fixture: the shallow 0.9-step dead-ends into 0.1 while the 0.2-step
completes at 1.0, so the optimum needs the deeper look. -/
def gDeep : String :=
  "a/DT/0/big/NN/1/0.9\na/DT/0/small/NN/1/0.2\nbig/NN/0/ran/VBD/1/0.1\nsmall/NN/0/ran/VBD/1/1.0"

/-- The table parsed from `gDeep`. -/
def tblDeep : Nexts :=
  [("a", [("DT", [("NN", [⟨"big", floatD "0.9"⟩, ⟨"small", floatD "0.2"⟩])])]),
   ("big", [("NN", [("VBD", [⟨"ran", floatD "0.1"⟩])])]),
   ("small", [("NN", [("VBD", [⟨"ran", floatD "1.0"⟩])])])]

/-! ### Association-list and lookup lemmas -/

theorem alistGet_alistSet_self {α : Type} (l : List (String × α)) (k : String) (v : α) :
    alistGet (alistSet l k v) k = some v := by
  induction l with
  | nil => simp [alistGet, alistSet]
  | cons hd tl ih =>
    obtain ⟨k', v'⟩ := hd
    by_cases h : k' = k
    · simp [alistSet, h, alistGet]
    · simp [alistSet, h, alistGet, ih]

theorem alistGet_mem {α : Type} {l : List (String × α)} {k : String} {v : α}
    (h : alistGet l k = some v) : (k, v) ∈ l := by
  induction l with
  | nil => simp [alistGet] at h
  | cons hd tl ih =>
    obtain ⟨k', v'⟩ := hd
    by_cases hk : k' = k
    · simp [alistGet, hk] at h
      simp [hk, h]
    · simp [alistGet, hk] at h
      exact List.mem_cons_of_mem _ (ih h)

theorem lookupNexts_insertNexts (nexts : Nexts) (w1 w2 : InputWord) (info : NextInfo) :
    lookupNexts (insertNexts nexts w1 w2 info) w1.word w1.type w2.type =
      lookupNexts nexts w1.word w1.type w2.type ++ [info] := by
  cases h1 : alistGet nexts w1.word with
  | none => simp [insertNexts, lookupNexts, h1, alistGet_alistSet_self, alistGet]
  | some m1 =>
    cases h2 : alistGet m1 w1.type with
    | none => simp [insertNexts, lookupNexts, h1, h2, alistGet_alistSet_self, alistGet]
    | some m2 =>
      cases h3 : alistGet m2 w2.type with
      | none => simp [insertNexts, lookupNexts, h1, h2, h3, alistGet_alistSet_self, alistGet]
      | some lst => simp [insertNexts, lookupNexts, h1, h2, h3, alistGet_alistSet_self, alistGet]

theorem lookupNexts_cases (nexts : Nexts) (w t1 t2 : String) :
    lookupNexts nexts w t1 t2 = [] ∨
      ∃ p1 ∈ nexts, ∃ p2 ∈ p1.2, ∃ p3 ∈ p2.2, lookupNexts nexts w t1 t2 = p3.2 := by
  cases h1 : alistGet nexts w with
  | none => left; simp [lookupNexts, h1]
  | some m1 =>
    cases h2 : alistGet m1 t1 with
    | none => left; simp [lookupNexts, h1, h2]
    | some m2 =>
      cases h3 : alistGet m2 t2 with
      | none => left; simp [lookupNexts, h1, h2, h3]
      | some lst =>
        right
        refine ⟨(w, m1), alistGet_mem h1, (t1, m2), alistGet_mem h2,
          (t2, lst), alistGet_mem h3, ?_⟩
        simp [lookupNexts, h1, h2, h3]

theorem ProbsIn01.of_lookup {nexts : Nexts} (hp : ProbsIn01 nexts) {info : NextInfo}
    {w t1 t2 : String} (h : info ∈ lookupNexts nexts w t1 t2) :
    0 ≤ info.percent ∧ info.percent ≤ 1 := by
  rcases lookupNexts_cases nexts w t1 t2 with he | ⟨p1, h1, p2, h2, p3, h3, he⟩
  · rw [he] at h
    simp at h
  · rw [he] at h
    exact hp p1 h1 p2 h2 p3 h3 info h

/-! ### Bounds on table branching -/

theorem le_foldMax_init {α : Type} (l : List α) (g : α → ℕ) (a : ℕ) : a ≤ foldMax l g a := by
  induction l generalizing a with
  | nil => simp [foldMax]
  | cons x xs ih =>
    have he : foldMax (x :: xs) g a = foldMax xs g (max a (g x)) := rfl
    rw [he]
    exact le_trans (le_max_left a (g x)) (ih (max a (g x)))

theorem le_foldMax_of_mem {α : Type} (g : α → ℕ) :
    ∀ (l : List α) (a : ℕ) (x : α), x ∈ l → g x ≤ foldMax l g a := by
  intro l
  induction l with
  | nil => intro a x hx; simp at hx
  | cons y ys ih =>
    intro a x hx
    have he : foldMax (y :: ys) g a = foldMax ys g (max a (g y)) := rfl
    rw [he]
    rcases List.mem_cons.mp hx with h | h
    · subst h
      exact le_trans (le_max_right a (g x)) (le_foldMax_init ys g (max a (g x)))
    · exact ih (max a (g y)) x h

theorem lookupNexts_length_le (nexts : Nexts) (w t1 t2 : String) :
    (lookupNexts nexts w t1 t2).length ≤ maxTransLen nexts := by
  rcases lookupNexts_cases nexts w t1 t2 with he | ⟨p1, h1, p2, h2, p3, h3, he⟩
  · simp [he]
  · rw [he]
    calc p3.2.length
        ≤ foldMax p2.2 (fun p3 => p3.2.length) 0 :=
          le_foldMax_of_mem (fun p3 => p3.2.length) p2.2 0 p3 h3
      _ ≤ foldMax p1.2 (fun p2 => foldMax p2.2 (fun p3 => p3.2.length) 0) 0 :=
          le_foldMax_of_mem (fun p2 => foldMax p2.2 (fun p3 => p3.2.length) 0) p1.2 0 p2 h2
      _ ≤ maxTransLen nexts :=
          le_foldMax_of_mem
            (fun p1 => foldMax p1.2 (fun p2 => foldMax p2.2 (fun p3 => p3.2.length) 0) 0)
            nexts 0 p1 h1

/-! ### Frontier removal lemmas -/

theorem nodeLe_true_le {a b : Node} (h : nodeLe a b = true) :
    a.weighting ≤ b.weighting := by
  unfold nodeLe at h
  by_cases h1 : a.weighting < b.weighting
  · exact le_of_lt h1
  · by_cases h2 : b.weighting < a.weighting
    · rw [if_neg h1, if_pos h2] at h
      exact absurd h (by simp)
    · exact le_of_not_lt h2

theorem nodeLe_false_le {a b : Node} (h : nodeLe a b = false) :
    b.weighting ≤ a.weighting := by
  unfold nodeLe at h
  by_cases h1 : a.weighting < b.weighting
  · rw [if_pos h1] at h
    exact absurd h (by simp)
  · exact le_of_not_lt h1

theorem extractMin_eq_none_iff (l : List Node) : extractMin l = none ↔ l = [] := by
  cases l with
  | nil => simp [extractMin]
  | cons n rest =>
    simp only [extractMin]
    constructor
    · intro h
      exfalso
      cases he : extractMin rest with
      | none => rw [he] at h; simp at h
      | some p =>
        obtain ⟨m, rest'⟩ := p
        rw [he] at h
        by_cases hle : nodeLe n m <;> simp [hle] at h
    · intro h
      exact absurd h (List.cons_ne_nil n rest)

theorem extractMin_perm : ∀ {l : List Node} {n : Node} {rest : List Node},
    extractMin l = some (n, rest) → l.Perm (n :: rest) := by
  intro l
  induction l with
  | nil => intro n rest h; simp [extractMin] at h
  | cons x xs ih =>
    intro n rest h
    simp only [extractMin] at h
    cases he : extractMin xs with
    | none =>
      rw [he] at h
      have hxs : xs = [] := (extractMin_eq_none_iff xs).mp he
      subst hxs
      simp only [Option.some_inj, Prod.mk.injEq] at h
      obtain ⟨h1, h2⟩ := h
      subst h1
      subst h2
      exact List.Perm.refl _
    | some p =>
      obtain ⟨m, rest'⟩ := p
      rw [he] at h
      by_cases hle : nodeLe x m
      · simp only [hle, if_true, Option.some_inj, Prod.mk.injEq] at h
        obtain ⟨h1, h2⟩ := h
        subst h1
        subst h2
        exact List.Perm.refl _
      · simp only [hle, if_false, Option.some_inj, Prod.mk.injEq, Bool.false_eq_true] at h
        obtain ⟨h1, h2⟩ := h
        subst h1
        subst h2
        exact (List.Perm.cons x (ih he)).trans (List.Perm.swap m x rest')

theorem extractMin_min : ∀ {l : List Node} {n : Node} {rest : List Node},
    extractMin l = some (n, rest) → ∀ x ∈ l, n.weighting ≤ x.weighting := by
  intro l
  induction l with
  | nil => intro n rest h; simp [extractMin] at h
  | cons y xs ih =>
    intro n rest h x hx
    simp only [extractMin] at h
    cases he : extractMin xs with
    | none =>
      rw [he] at h
      have hxs : xs = [] := (extractMin_eq_none_iff xs).mp he
      subst hxs
      simp only [Option.some_inj, Prod.mk.injEq] at h
      obtain ⟨h1, h2⟩ := h
      subst h1
      rcases List.mem_cons.mp hx with hxy | hxy
      · subst hxy
        exact le_refl _
      · simp at hxy
    | some p =>
      obtain ⟨m, rest'⟩ := p
      rw [he] at h
      by_cases hle : nodeLe y m
      · simp only [hle, if_true, Option.some_inj, Prod.mk.injEq] at h
        obtain ⟨h1, h2⟩ := h
        subst h1
        rcases List.mem_cons.mp hx with hxy | hxy
        · subst hxy
          exact le_refl _
        · exact le_trans (nodeLe_true_le hle) (ih he x hxy)
      · simp only [hle, if_false, Option.some_inj, Prod.mk.injEq, Bool.false_eq_true] at h
        obtain ⟨h1, h2⟩ := h
        subst h1
        have hym : m.weighting ≤ y.weighting :=
          nodeLe_false_le (Bool.eq_false_iff.mpr hle)
        rcases List.mem_cons.mp hx with hxy | hxy
        · subst hxy
          exact hym
        · exact ih he x hxy

theorem popNode_eq_none_iff (strat : Strat) (l : List Node) :
    popNode strat l = none ↔ l = [] := by
  cases l with
  | nil => cases strat <;> simp [popNode]
  | cons n rest =>
    cases strat with
    | breadth_first => simp [popNode]
    | depth_first => simp [popNode]
    | heuristic =>
      simp only [popNode]
      rw [extractMin_eq_none_iff]

theorem popNode_perm {strat : Strat} {l : List Node} {n : Node} {rest : List Node}
    (h : popNode strat l = some (n, rest)) : l.Perm (n :: rest) := by
  cases l with
  | nil => cases strat <;> simp [popNode] at h
  | cons x xs =>
    cases strat with
    | breadth_first =>
      simp only [popNode, Option.some_inj, Prod.mk.injEq] at h
      obtain ⟨h1, h2⟩ := h
      subst h1
      subst h2
      exact List.Perm.refl _
    | depth_first =>
      simp only [popNode, Option.some_inj, Prod.mk.injEq] at h
      obtain ⟨h1, h2⟩ := h
      subst h1
      subst h2
      have hd : (x :: xs).dropLast ++ [(x :: xs).getLast (List.cons_ne_nil x xs)] = x :: xs :=
        List.dropLast_append_getLast (List.cons_ne_nil x xs)
      have hp : ((x :: xs).dropLast ++ [(x :: xs).getLast (List.cons_ne_nil x xs)]).Perm
          ((x :: xs).getLast (List.cons_ne_nil x xs) :: (x :: xs).dropLast) :=
        List.perm_append_comm
      rw [hd] at hp
      exact hp
    | heuristic => exact extractMin_perm h

theorem popNode_heuristic_min {l : List Node} {n : Node} {rest : List Node}
    (h : popNode Strat.heuristic l = some (n, rest)) :
    ∀ x ∈ l, n.weighting ≤ x.weighting := by
  cases l with
  | nil => simp [popNode] at h
  | cons y xs => exact extractMin_min h

theorem popNode_mem {strat : Strat} {l : List Node} {n : Node} {rest : List Node}
    (h : popNode strat l = some (n, rest)) : n ∈ l :=
  (popNode_perm h).symm.subset (List.mem_cons_self n rest)

theorem popNode_subset {strat : Strat} {l : List Node} {n : Node} {rest : List Node}
    (h : popNode strat l = some (n, rest)) : ∀ x ∈ rest, x ∈ l :=
  fun x hx => (popNode_perm h).symm.subset (List.mem_cons_of_mem n hx)

/-! ### Termination: the fuel used by runSearch suffices -/

theorem nodeMeasure_pos (C L : ℕ) (n : Node) : 1 ≤ nodeMeasure C L n :=
  Nat.one_le_iff_ne_zero.mpr (pow_ne_zero _ (Nat.succ_ne_zero C))

theorem listMeasure_perm (C L : ℕ) {l1 l2 : List Node} (h : l1.Perm l2) :
    listMeasure C L l1 = listMeasure C L l2 :=
  (h.map (nodeMeasure C L)).sum_eq

theorem listMeasure_append (C L : ℕ) (l1 l2 : List Node) :
    listMeasure C L (l1 ++ l2) = listMeasure C L l1 + listMeasure C L l2 := by
  simp [listMeasure]

theorem listMeasure_pop {C L : ℕ} {strat : Strat} {l : List Node} {n : Node}
    {rest : List Node} (h : popNode strat l = some (n, rest)) :
    listMeasure C L l = nodeMeasure C L n + listMeasure C L rest := by
  have hp := listMeasure_perm C L (popNode_perm h)
  simpa [listMeasure] using hp

theorem generateNextNodes_depth (nexts : Nexts) (spec : List String) (node : Node) :
    ∀ c ∈ generateNextNodes nexts spec node, c.depth = node.depth + 1 := by
  intro c hc
  simp only [generateNextNodes, List.mem_map] at hc
  obtain ⟨info, _, rfl⟩ := hc
  rfl

theorem sum_map_le_length_mul {α : Type} (l : List α) (f : α → ℕ) (K : ℕ)
    (h : ∀ x ∈ l, f x ≤ K) : (l.map f).sum ≤ l.length * K := by
  induction l with
  | nil => simp
  | cons x xs ih =>
    simp only [List.map_cons, List.sum_cons, List.length_cons]
    have h1 : f x ≤ K := h x (List.mem_cons_self x xs)
    have h2 : (xs.map f).sum ≤ xs.length * K := ih (fun y hy => h y (List.mem_cons_of_mem x hy))
    calc f x + (xs.map f).sum ≤ K + xs.length * K := Nat.add_le_add h1 h2
      _ = (xs.length + 1) * K := by ring

theorem listMeasure_generate {nexts : Nexts} {spec : List String} {node : Node}
    (hd : node.depth < spec.length) :
    listMeasure (maxTransLen nexts) spec.length (generateNextNodes nexts spec node) <
      nodeMeasure (maxTransLen nexts) spec.length node := by
  set C := maxTransLen nexts with hC
  set L := spec.length with hL
  have hdep : ∀ c ∈ generateNextNodes nexts spec node,
      nodeMeasure C L c = (C + 1) ^ (L - (node.depth + 1)) := by
    intro c hc
    rw [nodeMeasure, generateNextNodes_depth nexts spec node c hc]
  have hlen : (generateNextNodes nexts spec node).length ≤ C := by
    rw [generateNextNodes, List.length_map]
    exact lookupNexts_length_le nexts _ _ _
  have hsum : listMeasure C L (generateNextNodes nexts spec node) ≤
      (generateNextNodes nexts spec node).length * (C + 1) ^ (L - (node.depth + 1)) :=
    sum_map_le_length_mul _ _ _ (fun c hc => le_of_eq (hdep c hc))
  have hpow : 0 < (C + 1) ^ (L - (node.depth + 1)) :=
    pow_pos (Nat.succ_pos C) _
  have hstep : (generateNextNodes nexts spec node).length * (C + 1) ^ (L - (node.depth + 1)) <
      (C + 1) * (C + 1) ^ (L - (node.depth + 1)) := by
    have : (generateNextNodes nexts spec node).length < C + 1 := Nat.lt_succ_of_le hlen
    exact Nat.mul_lt_mul_of_lt_of_le this (le_refl _) hpow
  have hexp : (C + 1) * (C + 1) ^ (L - (node.depth + 1)) = (C + 1) ^ (L - node.depth) := by
    have h1 : L - node.depth = (L - (node.depth + 1)) + 1 := by omega
    rw [h1, pow_succ]
    ring
  calc listMeasure C L (generateNextNodes nexts spec node)
      ≤ (generateNextNodes nexts spec node).length * (C + 1) ^ (L - (node.depth + 1)) := hsum
    _ < (C + 1) * (C + 1) ^ (L - (node.depth + 1)) := hstep
    _ = (C + 1) ^ (L - node.depth) := hexp
    _ = nodeMeasure C L node := rfl

theorem searchLoopF_isSome (strat : Strat) (nexts : Nexts) (spec : List String) :
    ∀ (fuel : ℕ) (st : SState),
      listMeasure (maxTransLen nexts) spec.length st.nodes < fuel →
      (searchLoopF strat nexts spec fuel st).isSome := by
  intro fuel
  induction fuel with
  | zero => intro st h; omega
  | succ fuel ih =>
    intro st h
    rw [searchLoopF]
    cases hpop : popNode strat st.nodes with
    | none => simp
    | some p =>
      obtain ⟨node, rest⟩ := p
      have hsplit := listMeasure_pop (C := maxTransLen nexts) (L := spec.length) hpop
      have hpos := nodeMeasure_pos (maxTransLen nexts) spec.length node
      by_cases hpr : isPruned st.best node = true
      · simp only [hpr, if_true]
        by_cases hh : strat = Strat.heuristic
        · simp [hh]
        · simp only [hh, if_false]
          exact ih _ (by simp only []; omega)
      · simp only [hpr, if_false, Bool.false_eq_true]
        by_cases hdl : node.depth < spec.length
        · simp only [hdl, if_true]
          apply ih
          simp only [listMeasure_append]
          have hgen := @listMeasure_generate nexts spec node hdl
          omega
        · simp only [hdl, if_false]
          by_cases hub : updatesBest st.best node = true
          · simp only [hub, if_true]
            exact ih _ (by simp only []; omega)
          · simp only [hub, if_false, Bool.false_eq_true]
            exact ih _ (by simp only []; omega)

theorem runSearch_spec (strat : Strat) (nexts : Nexts) (spec : List String)
    (startingWord : String) :
    searchLoopF strat nexts spec
        (searchFuel nexts spec ⟨[seedNode startingWord], none, 0⟩)
        ⟨[seedNode startingWord], none, 0⟩ =
      some (runSearch strat nexts spec startingWord) := by
  have h := searchLoopF_isSome strat nexts spec
    (searchFuel nexts spec ⟨[seedNode startingWord], none, 0⟩)
    ⟨[seedNode startingWord], none, 0⟩ (Nat.lt_succ_of_le (le_refl _))
  obtain ⟨r, hr⟩ := Option.isSome_iff_exists.mp h
  rw [runSearch, hr]
  rfl

/-! ### Reachability in the search tree -/

theorem ReachFrom.trans {nexts : Nexts} {spec : List String} {a b c : Node}
    (h1 : ReachFrom nexts spec a b) (h2 : ReachFrom nexts spec b c) :
    ReachFrom nexts spec a c := by
  induction h2 with
  | refl => exact h1
  | step info h hd hm ih => exact ReachFrom.step info ih hd hm

theorem ReachFrom.depth_le {nexts : Nexts} {spec : List String} {n m : Node}
    (h : ReachFrom nexts spec n m) : n.depth ≤ m.depth := by
  induction h with
  | refl => exact le_refl _
  | step info h hd hm ih =>
    exact le_trans ih (by simp [childNode])

theorem ReachFrom.eq_of_depth_le {nexts : Nexts} {spec : List String} {n m : Node}
    (h : ReachFrom nexts spec n m) (hd : m.depth ≤ n.depth) : m = n := by
  cases h with
  | refl => rfl
  | step info h hd' hm =>
    exfalso
    have h1 := ReachFrom.depth_le h
    simp [childNode] at hd
    omega

theorem ReachFrom.percent_le {nexts : Nexts} {spec : List String} {n m : Node}
    (hp : ProbsIn01 nexts) (h : ReachFrom nexts spec n m)
    (h0 : 0 ≤ n.sentence.percent) :
    m.sentence.percent ≤ n.sentence.percent ∧ 0 ≤ m.sentence.percent := by
  induction h with
  | refl => exact ⟨le_refl _, h0⟩
  | step info h hd hm ih =>
    obtain ⟨hle, hpos⟩ := ih
    obtain ⟨hi0, hi1⟩ := hp.of_lookup hm
    constructor
    · calc (childNode spec _ info).sentence.percent = _ * info.percent := rfl
        _ ≤ _ * 1 := by exact mul_le_mul_of_nonneg_left hi1 hpos
        _ = _ := mul_one _
        _ ≤ n.sentence.percent := hle
    · exact mul_nonneg hpos hi0

theorem ReachFrom.first_step {nexts : Nexts} {spec : List String} {n m : Node}
    (h : ReachFrom nexts spec n m) :
    m = n ∨ ∃ info, info ∈ lookupNexts nexts n.word (spec.getD (n.depth - 1) "")
      (spec.getD n.depth "") ∧ n.depth < spec.length ∧
      ReachFrom nexts spec (childNode spec n info) m := by
  induction h with
  | refl => exact Or.inl rfl
  | step info h hd hm ih =>
    rcases ih with heq | ⟨info', hm', hd', hr'⟩
    · subst heq
      exact Or.inr ⟨info, hm, hd, ReachFrom.refl _⟩
    · exact Or.inr ⟨info', hm', hd', ReachFrom.step info hr' hd hm⟩

theorem reach_one_le_depth {nexts : Nexts} {spec : List String} {startingWord : String}
    {m : Node} (h : Reach nexts spec startingWord m) : 1 ≤ m.depth :=
  ReachFrom.depth_le h

theorem childNode_mem_generate {nexts : Nexts} {spec : List String} {node : Node}
    {info : NextInfo}
    (hm : info ∈ lookupNexts nexts node.word (spec.getD (node.depth - 1) "")
      (spec.getD node.depth "")) :
    childNode spec node info ∈ generateNextNodes nexts spec node := by
  simp only [generateNextNodes, List.mem_map]
  exact ⟨info, hm, rfl⟩

theorem generate_mem_elim {nexts : Nexts} {spec : List String} {node c : Node}
    (hc : c ∈ generateNextNodes nexts spec node) :
    ∃ info, info ∈ lookupNexts nexts node.word (spec.getD (node.depth - 1) "")
      (spec.getD node.depth "") ∧ c = childNode spec node info := by
  simp only [generateNextNodes, List.mem_map] at hc
  obtain ⟨info, hm, rfl⟩ := hc
  exact ⟨info, hm, rfl⟩

theorem childNode_weighting (spec : List String) (node : Node) (info : NextInfo) :
    (childNode spec node info).weighting = -(childNode spec node info).sentence.percent := by
  simp only [childNode, heuristic_value, HEURISTIC_BEST_GUESS, one_zpow, mul_one]
  ring

theorem childNode_depth (spec : List String) (node : Node) (info : NextInfo) :
    (childNode spec node info).depth = node.depth + 1 := rfl

theorem childNode_percent (spec : List String) (node : Node) (info : NextInfo) :
    (childNode spec node info).sentence.percent = node.sentence.percent * info.percent := rfl

/-! ### The main loop invariant: soundness and optimality of the best sentence -/

theorem popNode_of_singleton {strat : Strat} {y n : Node} {rest : List Node}
    (hpop : popNode strat [y] = some (n, rest)) : n = y ∧ rest = [] := by
  have hn : n ∈ [y] := popNode_mem hpop
  have hlen : ([y] : List Node).length = (n :: rest).length := (popNode_perm hpop).length_eq
  have hlen' : 1 = rest.length + 1 := by simpa using hlen
  simp only [List.mem_singleton] at hn
  exact ⟨hn, List.length_eq_zero.mp (by omega)⟩

theorem searchLoopF_opt (strat : Strat) (nexts : Nexts) (spec : List String)
    (startingWord : String) (hp : ProbsIn01 nexts) :
    ∀ (fuel : ℕ) (st : SState) (bf : Option Sentence) (tf : ℕ),
      searchLoopF strat nexts spec fuel st = some (bf, tf) →
      LoopInv nexts spec startingWord st →
      (∀ b, bf = some b →
        ∃ m, Reach nexts spec startingWord m ∧ m.depth = spec.length ∧ m.sentence = b) ∧
      (∀ m, Reach nexts spec startingWord m → m.depth = spec.length →
        ∃ b, bf = some b ∧ m.sentence.percent ≤ b.percent) := by
  intro fuel
  induction fuel with
  | zero => intro st bf tf h; simp [searchLoopF] at h
  | succ fuel ih =>
    intro st bf tf h inv
    rw [searchLoopF] at h
    cases hpop : popNode strat st.nodes with
    | none =>
      rw [hpop] at h
      simp only [Option.some_inj, Prod.mk.injEq] at h
      obtain ⟨h1, h2⟩ := h
      subst h1
      refine ⟨inv.sound, ?_⟩
      intro m hm hd
      rcases inv.opt m hm hd with hok | ⟨x, hx, _⟩
      · exact hok
      · rw [(popNode_eq_none_iff strat st.nodes).mp hpop] at hx
        simp at hx
    | some p =>
      obtain ⟨node, rest⟩ := p
      rw [hpop] at h
      have hmem : node ∈ st.nodes := popNode_mem hpop
      have hrest : ∀ x ∈ rest, x ∈ st.nodes := popNode_subset hpop
      have hmemsplit : ∀ x ∈ st.nodes, x = node ∨ x ∈ rest := by
        intro x hx
        exact List.mem_cons.mp ((popNode_perm hpop).subset hx)
      have hrestweight : ∀ x ∈ rest, x.weighting = -x.sentence.percent := by
        intro x hx
        rcases inv.weight x (hrest x hx) with hwx | hsx
        · exact hwx
        · obtain ⟨-, hre⟩ := popNode_of_singleton (hsx ▸ hpop)
          rw [hre] at hx
          simp at hx
      by_cases hpr : isPruned st.best node = true
      · simp only [hpr, if_true] at h
        obtain ⟨b, hb, hblt⟩ : ∃ b, st.best = some b ∧ node.sentence.percent < b.percent := by
          cases hb : st.best with
          | none => rw [hb] at hpr; simp [isPruned] at hpr
          | some b =>
            rw [hb] at hpr
            simp only [isPruned, decide_eq_true_eq] at hpr
            exact ⟨b, rfl, hpr⟩
        by_cases hh : strat = Strat.heuristic
        · subst hh
          simp only [eq_self_iff_true, if_true, Option.some_inj, Prod.mk.injEq] at h
          obtain ⟨h1, h2⟩ := h
          subst h1
          refine ⟨inv.sound, ?_⟩
          intro m hm hd
          rcases inv.opt m hm hd with hok | ⟨x, hx, hrx⟩
          · exact hok
          · refine ⟨b, hb, ?_⟩
            have hmx : m.sentence.percent ≤ x.sentence.percent :=
              (ReachFrom.percent_le hp hrx (inv.nonneg x hx)).1
            have hxn : x.sentence.percent ≤ node.sentence.percent := by
              rcases inv.weight x hx with hwx | hsx
              · rcases inv.weight node hmem with hwn | hsn
                · have hw := popNode_heuristic_min hpop x hx
                  rw [hwx, hwn] at hw
                  linarith
                · obtain ⟨-, hre⟩ := popNode_of_singleton (hsn ▸ hpop)
                  rcases hmemsplit x hx with hxeq | hxr
                  · rw [hxeq]
                  · rw [hre] at hxr
                    simp at hxr
              · have hxn' : node ∈ [x] := hsx ▸ hmem
                simp only [List.mem_singleton] at hxn'
                rw [hxn']
            linarith
        · rw [if_neg hh] at h
          have hinv : LoopInv nexts spec startingWord ⟨rest, st.best, st.total + 1⟩ := by
            refine ⟨fun x hx => inv.reach x (hrest x hx),
              fun x hx => inv.depth_le x (hrest x hx),
              fun x hx => inv.nonneg x (hrest x hx),
              fun x hx => Or.inl (hrestweight x hx), inv.sound, ?_⟩
            intro m hm hd
            rcases inv.opt m hm hd with hok | ⟨x, hx, hrx⟩
            · exact Or.inl hok
            · rcases hmemsplit x hx with hxeq | hxr
              · subst hxeq
                left
                refine ⟨b, hb, ?_⟩
                have hmx := (ReachFrom.percent_le hp hrx (inv.nonneg x hmem)).1
                linarith
              · exact Or.inr ⟨x, hxr, hrx⟩
          exact ih _ bf tf h hinv
      · simp only [hpr, if_false, Bool.false_eq_true] at h
        by_cases hdl : node.depth < spec.length
        · rw [if_pos hdl] at h
          have hinv : LoopInv nexts spec startingWord
              ⟨rest ++ generateNextNodes nexts spec node, st.best, st.total + 1⟩ := by
            have hgen : ∀ c ∈ generateNextNodes nexts spec node,
                Reach nexts spec startingWord c ∧ c.depth ≤ spec.length ∧
                  0 ≤ c.sentence.percent ∧ c.weighting = -c.sentence.percent := by
              intro c hc
              obtain ⟨info, hmi, rfl⟩ := generate_mem_elim hc
              refine ⟨ReachFrom.step info (inv.reach node hmem) hdl hmi, ?_, ?_, ?_⟩
              · rw [childNode_depth]
                omega
              · rw [childNode_percent]
                exact mul_nonneg (inv.nonneg node hmem) (hp.of_lookup hmi).1
              · exact childNode_weighting spec node info
            refine ⟨?_, ?_, ?_, ?_, inv.sound, ?_⟩
            · intro x hx
              rcases List.mem_append.mp hx with hxr | hxg
              · exact inv.reach x (hrest x hxr)
              · exact (hgen x hxg).1
            · intro x hx
              rcases List.mem_append.mp hx with hxr | hxg
              · exact inv.depth_le x (hrest x hxr)
              · exact (hgen x hxg).2.1
            · intro x hx
              rcases List.mem_append.mp hx with hxr | hxg
              · exact inv.nonneg x (hrest x hxr)
              · exact (hgen x hxg).2.2.1
            · intro x hx
              rcases List.mem_append.mp hx with hxr | hxg
              · exact Or.inl (hrestweight x hxr)
              · exact Or.inl (hgen x hxg).2.2.2
            · intro m hm hd
              rcases inv.opt m hm hd with hok | ⟨x, hx, hrx⟩
              · exact Or.inl hok
              · rcases hmemsplit x hx with hxeq | hxr
                · subst hxeq
                  rcases ReachFrom.first_step hrx with hmeq | ⟨info, hmi, hdi, hrc⟩
                  · exfalso
                    rw [hmeq] at hd
                    omega
                  · exact Or.inr ⟨childNode spec x info,
                      List.mem_append.mpr (Or.inr (childNode_mem_generate hmi)), hrc⟩
                · exact Or.inr ⟨x, List.mem_append.mpr (Or.inl hxr), hrx⟩
          exact ih _ bf tf h hinv
        · rw [if_neg hdl] at h
          have hdeq : node.depth = spec.length := by
            have := inv.depth_le node hmem
            omega
          by_cases hub : updatesBest st.best node = true
          · rw [if_pos hub] at h
            have hinv : LoopInv nexts spec startingWord
                ⟨rest, some node.sentence, st.total + 1⟩ := by
              refine ⟨fun x hx => inv.reach x (hrest x hx),
                fun x hx => inv.depth_le x (hrest x hx),
                fun x hx => inv.nonneg x (hrest x hx),
                fun x hx => Or.inl (hrestweight x hx), ?_, ?_⟩
              · intro b hbeq
                simp only [Option.some_inj] at hbeq
                exact ⟨node, inv.reach node hmem, hdeq, hbeq⟩
              · intro m hm hd
                rcases inv.opt m hm hd with ⟨b, hb, hle⟩ | ⟨x, hx, hrx⟩
                · left
                  refine ⟨node.sentence, rfl, ?_⟩
                  rw [hb] at hub
                  simp only [updatesBest, decide_eq_true_eq] at hub
                  linarith
                · rcases hmemsplit x hx with hxeq | hxr
                  · subst hxeq
                    have hmeq : m = x := ReachFrom.eq_of_depth_le hrx (by omega)
                    subst hmeq
                    exact Or.inl ⟨m.sentence, rfl, le_refl _⟩
                  · exact Or.inr ⟨x, hxr, hrx⟩
            exact ih _ bf tf h hinv
          · rw [if_neg hub] at h
            obtain ⟨b, hb⟩ : ∃ b, st.best = some b := by
              cases hb : st.best with
              | none => rw [hb] at hub; simp [updatesBest] at hub
              | some b => exact ⟨b, rfl⟩
            rw [hb] at hub hpr
            simp only [updatesBest, decide_eq_true_eq] at hub
            simp only [isPruned, decide_eq_true_eq] at hpr
            have hinv : LoopInv nexts spec startingWord ⟨rest, st.best, st.total + 1⟩ := by
              refine ⟨fun x hx => inv.reach x (hrest x hx),
                fun x hx => inv.depth_le x (hrest x hx),
                fun x hx => inv.nonneg x (hrest x hx),
                fun x hx => Or.inl (hrestweight x hx), inv.sound, ?_⟩
              intro m hm hd
              rcases inv.opt m hm hd with hok | ⟨x, hx, hrx⟩
              · exact Or.inl hok
              · rcases hmemsplit x hx with hxeq | hxr
                · subst hxeq
                  have hmeq : m = x := ReachFrom.eq_of_depth_le hrx (by omega)
                  subst hmeq
                  left
                  exact ⟨b, hb, le_of_not_lt hub⟩
                · exact Or.inr ⟨x, hxr, hrx⟩
            exact ih _ bf tf h hinv

/-! ### The full search tree size and the breadth-first node count -/

theorem treeCount_of_lt {nexts : Nexts} {spec : List String} {w : String} {d : ℕ}
    (h : d < spec.length) :
    treeCount nexts spec w d =
      1 + ((lookupNexts nexts w (spec.getD (d - 1) "") (spec.getD d "")).map
        (fun info => treeCount nexts spec info.word (d + 1))).sum := by
  rw [treeCount]
  have h1 : spec.length - d = (spec.length - (d + 1)) + 1 := by omega
  rw [h1, treeCountAux]
  rfl

theorem treeCount_of_ge {nexts : Nexts} {spec : List String} {w : String} {d : ℕ}
    (h : spec.length ≤ d) : treeCount nexts spec w d = 1 := by
  rw [treeCount]
  have h1 : spec.length - d = 0 := by omega
  rw [h1, treeCountAux]

theorem treeCount_gen (nexts : Nexts) (spec : List String) (node : Node) :
    ((generateNextNodes nexts spec node).map
        (fun n => treeCount nexts spec n.word n.depth)).sum =
      ((lookupNexts nexts node.word (spec.getD (node.depth - 1) "")
          (spec.getD node.depth "")).map
        (fun info => treeCount nexts spec info.word (node.depth + 1))).sum := by
  rw [generateNextNodes, List.map_map]
  rfl

theorem popNode_bfs_cons {l : List Node} {n : Node} {rest : List Node}
    (h : popNode Strat.breadth_first l = some (n, rest)) : l = n :: rest := by
  cases l with
  | nil => simp [popNode] at h
  | cons x xs =>
    simp only [popNode, Option.some_inj, Prod.mk.injEq] at h
    rw [h.1, h.2]

theorem twoLevels_step {node : Node} {rest ch : List Node}
    (h : TwoLevels (node :: rest)) (hch : ∀ c ∈ ch, c.depth = node.depth + 1) :
    TwoLevels (rest ++ ch) := by
  obtain ⟨d, A, B, happ, hA, hB⟩ := h
  cases A with
  | nil =>
    simp only [List.nil_append] at happ
    have hnd : node.depth = d + 1 := hB node (happ ▸ List.mem_cons_self node rest)
    refine ⟨node.depth, rest, ch, rfl, ?_, hch⟩
    intro x hx
    have hxB : x ∈ B := happ ▸ List.mem_cons_of_mem node hx
    rw [hB x hxB, hnd]
  | cons a A' =>
    simp only [List.cons_append, List.cons.injEq] at happ
    obtain ⟨hna, hrest⟩ := happ
    have hnd : node.depth = d := by rw [hna]; exact hA a (List.mem_cons_self a A')
    refine ⟨d, A', B ++ ch, by rw [hrest, List.append_assoc], ?_, ?_⟩
    · intro x hx
      exact hA x (List.mem_cons_of_mem a hx)
    · intro x hx
      rcases List.mem_append.mp hx with hxB | hxc
      · exact hB x hxB
      · rw [hch x hxc, hnd]

theorem twoLevels_tail {node : Node} {rest : List Node} (h : TwoLevels (node :: rest)) :
    TwoLevels rest := by
  have := @twoLevels_step node rest [] h (by simp)
  simpa using this

theorem twoLevels_head_min {node : Node} {rest : List Node}
    (h : TwoLevels (node :: rest)) : ∀ x ∈ rest, node.depth ≤ x.depth := by
  obtain ⟨d, A, B, happ, hA, hB⟩ := h
  intro x hx
  cases A with
  | nil =>
    simp only [List.nil_append] at happ
    have hnd : node.depth = d + 1 := hB node (happ ▸ List.mem_cons_self node rest)
    have hxd : x.depth = d + 1 := hB x (happ ▸ List.mem_cons_of_mem node hx)
    omega
  | cons a A' =>
    simp only [List.cons_append, List.cons.injEq] at happ
    obtain ⟨hna, hrest⟩ := happ
    have hnd : node.depth = d := by rw [hna]; exact hA a (List.mem_cons_self a A')
    have hxd : x.depth = d ∨ x.depth = d + 1 := by
      rcases List.mem_append.mp (hrest ▸ hx) with hxA | hxB
      · exact Or.inl (hA x (List.mem_cons_of_mem a hxA))
      · exact Or.inr (hB x hxB)
    omega

theorem searchLoopF_count (nexts : Nexts) (spec : List String) :
    ∀ (fuel : ℕ) (st : SState) (bf : Option Sentence) (tf : ℕ),
      searchLoopF Strat.breadth_first nexts spec fuel st = some (bf, tf) →
      TwoLevels st.nodes →
      (st.best.isSome = true → ∀ n ∈ st.nodes, spec.length ≤ n.depth) →
      tf = st.total +
        (st.nodes.map (fun n => treeCount nexts spec n.word n.depth)).sum := by
  intro fuel
  induction fuel with
  | zero => intro st bf tf h; simp [searchLoopF] at h
  | succ fuel ih =>
    intro st bf tf h htwo hbest
    rw [searchLoopF] at h
    cases hpop : popNode Strat.breadth_first st.nodes with
    | none =>
      rw [hpop] at h
      simp only [Option.some_inj, Prod.mk.injEq] at h
      rw [(popNode_eq_none_iff _ st.nodes).mp hpop]
      simp [← h.2]
    | some p =>
      obtain ⟨node, rest⟩ := p
      rw [hpop] at h
      have hcons : st.nodes = node :: rest := popNode_bfs_cons hpop
      rw [hcons] at htwo hbest
      rw [hcons]
      simp only [List.map_cons, List.sum_cons]
      by_cases hpr : isPruned st.best node = true
      · simp only [hpr, if_true] at h
        rw [if_neg (by intro hfalse; cases hfalse)] at h
        have hsome : st.best.isSome = true := by
          cases hb : st.best with
          | none => rw [hb] at hpr; simp [isPruned] at hpr
          | some b => rfl
        have hnodeL : spec.length ≤ node.depth :=
          hbest hsome node (List.mem_cons_self node rest)
        have ihres := ih ⟨rest, st.best, st.total + 1⟩ bf tf h (twoLevels_tail htwo)
          (fun _ x hx => hbest hsome x (List.mem_cons_of_mem node hx))
        simp only at ihres
        rw [ihres, treeCount_of_ge hnodeL]
        ring
      · simp only [hpr, if_false, Bool.false_eq_true] at h
        by_cases hdl : node.depth < spec.length
        · rw [if_pos hdl] at h
          have hnone : st.best = none := by
            cases hb : st.best with
            | none => rfl
            | some b =>
              exfalso
              have := hbest (by rw [hb]; rfl) node (List.mem_cons_self node rest)
              omega
          have hch : ∀ c ∈ generateNextNodes nexts spec node, c.depth = node.depth + 1 :=
            generateNextNodes_depth nexts spec node
          have ihres := ih ⟨rest ++ generateNextNodes nexts spec node, st.best, st.total + 1⟩
            bf tf h (twoLevels_step htwo hch)
            (by rw [hnone]; intro hfalse; cases hfalse)
          simp only [List.map_append, List.sum_append] at ihres
          rw [ihres, treeCount_of_lt hdl, treeCount_gen]
          ring
        · rw [if_neg hdl] at h
          have hnodeL : spec.length ≤ node.depth := by omega
          have hrestL : ∀ x ∈ rest, spec.length ≤ x.depth := by
            intro x hx
            exact le_trans hnodeL (twoLevels_head_min htwo x hx)
          by_cases hub : updatesBest st.best node = true
          · rw [if_pos hub] at h
            have ihres := ih ⟨rest, some node.sentence, st.total + 1⟩ bf tf h
              (twoLevels_tail htwo) (fun _ x hx => hrestL x hx)
            simp only at ihres
            rw [ihres, treeCount_of_ge hnodeL]
            ring
          · rw [if_neg hub] at h
            have ihres := ih ⟨rest, st.best, st.total + 1⟩ bf tf h
              (twoLevels_tail htwo) (fun _ x hx => hrestL x hx)
            simp only at ihres
            rw [ihres, treeCount_of_ge hnodeL]
            ring

/-! ### Soundness and population of the best result, with no assumption on
the probabilities -/

theorem searchLoopF_sound (strat : Strat) (nexts : Nexts) (spec : List String)
    (startingWord : String) :
    ∀ (fuel : ℕ) (st : SState) (bf : Option Sentence) (tf : ℕ),
      searchLoopF strat nexts spec fuel st = some (bf, tf) →
      (∀ n ∈ st.nodes, Reach nexts spec startingWord n) →
      (∀ n ∈ st.nodes, n.depth ≤ spec.length) →
      (∀ b, st.best = some b →
        ∃ m, Reach nexts spec startingWord m ∧ m.depth = spec.length ∧ m.sentence = b) →
      ∀ b, bf = some b →
        ∃ m, Reach nexts spec startingWord m ∧ m.depth = spec.length ∧ m.sentence = b := by
  intro fuel
  induction fuel with
  | zero => intro st bf tf h; simp [searchLoopF] at h
  | succ fuel ih =>
    intro st bf tf h hreach hdepth hsound
    rw [searchLoopF] at h
    cases hpop : popNode strat st.nodes with
    | none =>
      rw [hpop] at h
      simp only [Option.some_inj, Prod.mk.injEq] at h
      rw [← h.1]
      exact hsound
    | some p =>
      obtain ⟨node, rest⟩ := p
      rw [hpop] at h
      have hmem : node ∈ st.nodes := popNode_mem hpop
      have hrest : ∀ x ∈ rest, x ∈ st.nodes := popNode_subset hpop
      by_cases hpr : isPruned st.best node = true
      · simp only [hpr, if_true] at h
        by_cases hh : strat = Strat.heuristic
        · subst hh
          simp only [eq_self_iff_true, if_true, Option.some_inj, Prod.mk.injEq] at h
          rw [← h.1]
          exact hsound
        · rw [if_neg hh] at h
          exact ih _ bf tf h (fun x hx => hreach x (hrest x hx))
            (fun x hx => hdepth x (hrest x hx)) hsound
      · simp only [hpr, if_false, Bool.false_eq_true] at h
        by_cases hdl : node.depth < spec.length
        · rw [if_pos hdl] at h
          refine ih _ bf tf h ?_ ?_ hsound
          · intro x hx
            rcases List.mem_append.mp hx with hxr | hxg
            · exact hreach x (hrest x hxr)
            · obtain ⟨info, hmi, rfl⟩ := generate_mem_elim hxg
              exact ReachFrom.step info (hreach node hmem) hdl hmi
          · intro x hx
            rcases List.mem_append.mp hx with hxr | hxg
            · exact hdepth x (hrest x hxr)
            · obtain ⟨info, hmi, rfl⟩ := generate_mem_elim hxg
              rw [childNode_depth]
              omega
        · rw [if_neg hdl] at h
          have hdeq : node.depth = spec.length := by
            have := hdepth node hmem
            omega
          by_cases hub : updatesBest st.best node = true
          · rw [if_pos hub] at h
            refine ih _ bf tf h (fun x hx => hreach x (hrest x hx))
              (fun x hx => hdepth x (hrest x hx)) ?_
            intro b hbeq
            simp only [Option.some_inj] at hbeq
            exact ⟨node, hreach node hmem, hdeq, hbeq⟩
          · rw [if_neg hub] at h
            exact ih _ bf tf h (fun x hx => hreach x (hrest x hx))
              (fun x hx => hdepth x (hrest x hx)) hsound

theorem searchLoopF_some (strat : Strat) (nexts : Nexts) (spec : List String)
    (startingWord : String) :
    ∀ (fuel : ℕ) (st : SState) (bf : Option Sentence) (tf : ℕ),
      searchLoopF strat nexts spec fuel st = some (bf, tf) →
      (st.best.isSome = true ∨
        ∀ m, Reach nexts spec startingWord m → spec.length ≤ m.depth →
          ∃ x ∈ st.nodes, ReachFrom nexts spec x m) →
      (∃ m, Reach nexts spec startingWord m ∧ spec.length ≤ m.depth) →
      bf.isSome = true := by
  intro fuel
  induction fuel with
  | zero => intro st bf tf h; simp [searchLoopF] at h
  | succ fuel ih =>
    intro st bf tf h hinv hex
    rw [searchLoopF] at h
    cases hpop : popNode strat st.nodes with
    | none =>
      rw [hpop] at h
      simp only [Option.some_inj, Prod.mk.injEq] at h
      rw [← h.1]
      rcases hinv with hsome | hwit
      · exact hsome
      · exfalso
        obtain ⟨m, hm, hd⟩ := hex
        obtain ⟨x, hx, -⟩ := hwit m hm hd
        rw [(popNode_eq_none_iff strat st.nodes).mp hpop] at hx
        simp at hx
    | some p =>
      obtain ⟨node, rest⟩ := p
      rw [hpop] at h
      have hmemsplit : ∀ x ∈ st.nodes, x = node ∨ x ∈ rest := by
        intro x hx
        exact List.mem_cons.mp ((popNode_perm hpop).subset hx)
      by_cases hpr : isPruned st.best node = true
      · simp only [hpr, if_true] at h
        have hsome : st.best.isSome = true := by
          cases hb : st.best with
          | none => rw [hb] at hpr; simp [isPruned] at hpr
          | some b => rfl
        by_cases hh : strat = Strat.heuristic
        · subst hh
          simp only [eq_self_iff_true, if_true, Option.some_inj, Prod.mk.injEq] at h
          rw [← h.1]
          exact hsome
        · rw [if_neg hh] at h
          exact ih _ bf tf h (Or.inl hsome) hex
      · simp only [hpr, if_false, Bool.false_eq_true] at h
        by_cases hdl : node.depth < spec.length
        · rw [if_pos hdl] at h
          refine ih _ bf tf h ?_ hex
          rcases hinv with hsome | hwit
          · exact Or.inl hsome
          · right
            intro m hm hd
            obtain ⟨x, hx, hrx⟩ := hwit m hm hd
            rcases hmemsplit x hx with hxeq | hxr
            · subst hxeq
              rcases ReachFrom.first_step hrx with hmeq | ⟨info, hmi, hdi, hrc⟩
              · exfalso
                rw [hmeq] at hd
                omega
              · exact ⟨childNode spec x info,
                  List.mem_append.mpr (Or.inr (childNode_mem_generate hmi)), hrc⟩
            · exact ⟨x, List.mem_append.mpr (Or.inl hxr), hrx⟩
        · rw [if_neg hdl] at h
          by_cases hub : updatesBest st.best node = true
          · rw [if_pos hub] at h
            exact ih _ bf tf h (Or.inl rfl) hex
          · rw [if_neg hub] at h
            have hsome : st.best.isSome = true := by
              cases hb : st.best with
              | none => rw [hb] at hub; simp [updatesBest] at hub
              | some b => rfl
            exact ih _ bf tf h (Or.inl hsome) hex

/-! ### The pruning step, in isolation -/

/-- C2: when the node removed from the frontier has cumulative probability
strictly below the current best candidate's, it is never expanded: under
`heuristic` the loop stops at once returning the current best, while under
the other strategies only this node is dropped and the loop continues on
the remaining frontier. -/
theorem searchLoopF_prune_step (strat : Strat) (nexts : Nexts) (spec : List String)
    (fuel : ℕ) (nodes : List Node) (best : Option Sentence) (total : ℕ)
    (node : Node) (rest : List Node) (b : Sentence)
    (hpop : popNode strat nodes = some (node, rest))
    (hb : best = some b)
    (hlt : node.sentence.percent < b.percent) :
    (strat = Strat.heuristic →
      searchLoopF strat nexts spec (fuel + 1) ⟨nodes, best, total⟩ =
        some (best, total + 1)) ∧
    (strat ≠ Strat.heuristic →
      searchLoopF strat nexts spec (fuel + 1) ⟨nodes, best, total⟩ =
        searchLoopF strat nexts spec fuel ⟨rest, best, total + 1⟩) := by
  have hpr : isPruned best node = true := by
    rw [hb]
    simp only [isPruned, decide_eq_true_eq]
    exact hlt
  constructor
  · intro hh
    subst hh
    rw [searchLoopF, hpop]
    simp only [hpr, if_true, eq_self_iff_true]
  · intro hh
    rw [searchLoopF, hpop]
    simp only [hpr, if_true]
    rw [if_neg hh]

/-! ### Top-level wrappers -/

theorem seed_LoopInv (nexts : Nexts) (spec : List String) (startingWord : String)
    (hL : 1 ≤ spec.length) :
    LoopInv nexts spec startingWord ⟨[seedNode startingWord], none, 0⟩ := by
  refine ⟨?_, ?_, ?_, ?_, ?_, ?_⟩
  · intro n hn
    simp only [List.mem_singleton] at hn
    subst hn
    exact ReachFrom.refl _
  · intro n hn
    simp only [List.mem_singleton] at hn
    subst hn
    exact hL
  · intro n hn
    simp only [List.mem_singleton] at hn
    subst hn
    norm_num [seedNode]
  · intro n hn
    simp only [List.mem_singleton] at hn
    subst hn
    exact Or.inr rfl
  · intro b hb
    cases hb
  · intro m hm _
    exact Or.inr ⟨seedNode startingWord, List.mem_singleton.mpr rfl, hm⟩

theorem runSearch_opt (strat : Strat) (nexts : Nexts) (spec : List String)
    (startingWord : String) (hp : ProbsIn01 nexts)
    (hex : ∃ m, Reach nexts spec startingWord m ∧ m.depth = spec.length) :
    ∃ b t, runSearch strat nexts spec startingWord = (some b, t) ∧
      (∃ m, Reach nexts spec startingWord m ∧ m.depth = spec.length ∧ m.sentence = b) ∧
      (∀ m, Reach nexts spec startingWord m → m.depth = spec.length →
        m.sentence.percent ≤ b.percent) := by
  obtain ⟨m0, hm0, hd0⟩ := hex
  have hL : 1 ≤ spec.length := hd0 ▸ reach_one_le_depth hm0
  have hspec := runSearch_spec strat nexts spec startingWord
  rcases hr : runSearch strat nexts spec startingWord with ⟨bf, tf⟩
  rw [hr] at hspec
  obtain ⟨hsound, hopt⟩ := searchLoopF_opt strat nexts spec startingWord hp _ _ bf tf
    hspec (seed_LoopInv nexts spec startingWord hL)
  obtain ⟨b, hbf, -⟩ := hopt m0 hm0 hd0
  refine ⟨b, tf, by rw [hbf], hsound b hbf, ?_⟩
  intro m hm hd
  obtain ⟨b', hb', hle'⟩ := hopt m hm hd
  rw [hbf] at hb'
  simp only [Option.some_inj] at hb'
  exact hb' ▸ hle'

theorem runSearch_best_sound (strat : Strat) (nexts : Nexts) (spec : List String)
    (startingWord : String) (hL : 1 ≤ spec.length) :
    ∀ b, (runSearch strat nexts spec startingWord).1 = some b →
      ∃ m, Reach nexts spec startingWord m ∧ m.depth = spec.length ∧ m.sentence = b := by
  have hspec := runSearch_spec strat nexts spec startingWord
  rcases hr : runSearch strat nexts spec startingWord with ⟨bf, tf⟩
  rw [hr] at hspec
  intro b hb
  refine searchLoopF_sound strat nexts spec startingWord _ _ bf tf hspec ?_ ?_ ?_ b (by simpa using hb)
  · intro n hn
    simp only [List.mem_singleton] at hn
    subst hn
    exact ReachFrom.refl _
  · intro n hn
    simp only [List.mem_singleton] at hn
    subst hn
    exact hL
  · intro b' hb'
    cases hb'

theorem runSearch_best_some (strat : Strat) (nexts : Nexts) (spec : List String)
    (startingWord : String)
    (hex : ∃ m, Reach nexts spec startingWord m ∧ spec.length ≤ m.depth) :
    ((runSearch strat nexts spec startingWord).1).isSome = true := by
  have hspec := runSearch_spec strat nexts spec startingWord
  rcases hr : runSearch strat nexts spec startingWord with ⟨bf, tf⟩
  rw [hr] at hspec
  refine searchLoopF_some strat nexts spec startingWord _ _ bf tf hspec (Or.inr ?_)
    (by simpa using hex)
  intro m hm hd
  exact ⟨seedNode startingWord, List.mem_singleton.mpr rfl, hm⟩

theorem generate_of_runSearch {startingWord : String} {spec : List String}
    {strategy graph : String} {strat : Strat} {nexts : Nexts} {b : Sentence} {t : ℕ}
    (hstrat : stratOf (pyLower strategy) = some strat)
    (hparse : processInput graph = some nexts)
    (hr : runSearch strat nexts spec startingWord = (some b, t)) :
    generate startingWord spec strategy graph = some (formatResult b t) := by
  simp [generate, hstrat, hparse, generateWith, hr]

theorem generate_of_runSearch_none {startingWord : String} {spec : List String}
    {strategy graph : String} {strat : Strat} {nexts : Nexts} {t : ℕ}
    (hstrat : stratOf (pyLower strategy) = some strat)
    (hparse : processInput graph = some nexts)
    (hr : runSearch strat nexts spec startingWord = (none, t)) :
    generate startingWord spec strategy graph = none := by
  simp [generate, hstrat, hparse, generateWith, hr]

/-! ### Loader and strategy-gate helpers -/

theorem foldlM_processLine_filter :
    ∀ (lines : List String) (acc : Nexts),
      lines.foldlM processLine acc =
        (lines.filter (fun l => decide (l ≠ ""))).foldlM processLine acc := by
  intro lines
  induction lines with
  | nil => intro acc; rfl
  | cons l ls ih =>
    intro acc
    by_cases hl : l = ""
    · subst hl
      rw [List.foldlM_cons, List.filter_cons]
      rw [if_neg (by simp)]
      have hline : processLine acc "" = some acc := by simp [processLine]
      rw [hline]
      exact ih acc
    · rw [List.foldlM_cons, List.filter_cons]
      rw [if_pos (show decide (l ≠ "") = true by simp [hl])]
      rw [List.foldlM_cons]
      cases hres : processLine acc l with
      | none => simp [hres]
      | some acc' => exact ih acc'

theorem stratOf_eq_none_iff (s : String) :
    stratOf s = none ↔
      s ∉ (["breadth_first", "depth_first", "heuristic"] : List String) := by
  unfold stratOf
  by_cases h1 : s = "breadth_first" <;> by_cases h2 : s = "depth_first" <;>
    by_cases h3 : s = "heuristic" <;> simp [h1, h2, h3]

theorem stratOf_of_mem {s : String}
    (h : s ∈ (["breadth_first", "depth_first", "heuristic"] : List String)) :
    ∃ strat, stratOf s = some strat := by
  simp only [List.mem_cons, List.mem_singleton, List.not_mem_nil, or_false] at h
  rcases h with h | h | h <;> subst h
  · exact ⟨Strat.breadth_first, rfl⟩
  · exact ⟨Strat.depth_first, rfl⟩
  · exact ⟨Strat.heuristic, rfl⟩

theorem runSearch_single (strat : Strat) (nexts : Nexts) (c startingWord : String) :
    runSearch strat nexts [c] startingWord = (some ⟨startingWord, 1, 1⟩, 1) := by
  cases strat <;> rfl

theorem reach_nil_eq {spec : List String} {startingWord : String} {m : Node}
    (h : Reach [] spec startingWord m) : m = seedNode startingWord := by
  rcases ReachFrom.first_step h with heq | ⟨info, hmi, -, -⟩
  · exact heq
  · exfalso
    simp [lookupNexts, alistGet] at hmi

/-! ### Concrete fixtures used to instantiate the claims -/

theorem floatD_eval_01 : floatD "0.1" = 1 / 10 := by
  show partsVal ⟨false, 0, 1, 1, false, 0⟩ = 1 / 10
  norm_num [partsVal]

theorem floatD_eval_02 : floatD "0.2" = 2 / 10 := by
  show partsVal ⟨false, 0, 2, 1, false, 0⟩ = 2 / 10
  norm_num [partsVal]

theorem floatD_eval_03 : floatD "0.3" = 3 / 10 := by
  show partsVal ⟨false, 0, 3, 1, false, 0⟩ = 3 / 10
  norm_num [partsVal]

theorem floatD_eval_07 : floatD "0.7" = 7 / 10 := by
  show partsVal ⟨false, 0, 7, 1, false, 0⟩ = 7 / 10
  norm_num [partsVal]

theorem floatD_eval_09 : floatD "0.9" = 9 / 10 := by
  show partsVal ⟨false, 0, 9, 1, false, 0⟩ = 9 / 10
  norm_num [partsVal]

theorem floatD_eval_10 : floatD "1.0" = 1 := by
  show partsVal ⟨false, 1, 0, 1, false, 0⟩ = 1
  norm_num [partsVal]

theorem float_eval_05 : float "0.5" = some (1 / 2) := by
  show some (partsVal ⟨false, 0, 5, 1, false, 0⟩) = some (1 / 2)
  norm_num [partsVal]

theorem float_eval_exp : float "1e-3" = some (1 / 1000) := by
  show some (partsVal ⟨false, 1, 0, 0, true, 3⟩) = some (1 / 1000)
  norm_num [partsVal]

theorem float_eval_underscore : float " +1_0.5 " = some (21 / 2) := by
  show some (partsVal ⟨false, 10, 5, 1, false, 0⟩) = some (21 / 2)
  norm_num [partsVal]

theorem float_eval_nonnumeric : float "zz" = none := rfl

theorem tblTwoPaths_probs : ProbsIn01 tblTwoPaths := by
  intro p1 h1 p2 h2 p3 h3 info hi
  simp only [tblTwoPaths, List.mem_cons, List.mem_singleton, List.not_mem_nil,
    or_false] at h1
  rcases h1 with h1 | h1 | h1 <;> subst h1 <;>
    simp only [List.mem_singleton, List.not_mem_nil, or_false] at h2 <;> subst h2 <;>
    simp only [List.mem_singleton, List.not_mem_nil, or_false] at h3 <;> subst h3 <;>
    simp only [List.mem_cons, List.mem_singleton, List.not_mem_nil, or_false] at hi
  · rcases hi with hi | hi <;> subst hi <;>
      simp [floatD_eval_03, floatD_eval_07] <;> norm_num
  · subst hi
    simp [floatD_eval_10]
  · subst hi
    simp [floatD_eval_10]

theorem tblDeep_probs : ProbsIn01 tblDeep := by
  intro p1 h1 p2 h2 p3 h3 info hi
  simp only [tblDeep, List.mem_cons, List.mem_singleton, List.not_mem_nil,
    or_false] at h1
  rcases h1 with h1 | h1 | h1 <;> subst h1 <;>
    simp only [List.mem_singleton, List.not_mem_nil, or_false] at h2 <;> subst h2 <;>
    simp only [List.mem_singleton, List.not_mem_nil, or_false] at h3 <;> subst h3 <;>
    simp only [List.mem_cons, List.mem_singleton, List.not_mem_nil, or_false] at hi
  · rcases hi with hi | hi <;> subst hi <;> simp [floatD_eval_09, floatD_eval_02] <;> norm_num
  · subst hi
    simp [floatD_eval_01]
    norm_num
  · subst hi
    simp [floatD_eval_10]

/-! ### Claim theorems -/

/-- C1: for every table whose probabilities lie in the unit interval and
every query admitting a complete chain, the search under strategy
`heuristic` returns a complete chain of maximum cumulative probability,
despite its early termination, and that value agrees with what
breadth-first search returns on the same table; `generate` emits it. -/
theorem C1_heuristic_optimal (startingWord : String) (spec : List String)
    (graph : String) (nexts : Nexts)
    (hparse : processInput graph = some nexts)
    (hp : ProbsIn01 nexts)
    (hex : ∃ m, Reach nexts spec startingWord m ∧ m.depth = spec.length) :
    ∃ bh th bb tb,
      runSearch Strat.heuristic nexts spec startingWord = (some bh, th) ∧
      generate startingWord spec "heuristic" graph = some (formatResult bh th) ∧
      (∃ m, Reach nexts spec startingWord m ∧ m.depth = spec.length ∧ m.sentence = bh) ∧
      (∀ m, Reach nexts spec startingWord m → m.depth = spec.length →
        m.sentence.percent ≤ bh.percent) ∧
      runSearch Strat.breadth_first nexts spec startingWord = (some bb, tb) ∧
      bb.percent = bh.percent := by
  obtain ⟨bh, th, hrh, hsoundh, hopth⟩ :=
    runSearch_opt Strat.heuristic nexts spec startingWord hp hex
  obtain ⟨bb, tb, hrb, hsoundb, hoptb⟩ :=
    runSearch_opt Strat.breadth_first nexts spec startingWord hp hex
  refine ⟨bh, th, bb, tb, hrh,
    generate_of_runSearch (by decide) hparse hrh, hsoundh, hopth, hrb, ?_⟩
  obtain ⟨mh, hmh, hdh, hsh⟩ := hsoundh
  obtain ⟨mb, hmb, hdb, hsb⟩ := hsoundb
  have h1 : mh.sentence.percent ≤ bb.percent := hoptb mh hmh hdh
  have h2 : mb.sentence.percent ≤ bh.percent := hopth mb hmb hdb
  rw [hsh] at h1
  rw [hsb] at h2
  exact le_antisymm h2 h1

/-- Witness for C1 at the deep-table fixture, where the shallow 0.9 branch
dead-ends into 0.1 and the optimum 0.2 requires the deeper exploration. -/
theorem C1_witness :
    ∃ bh th bb tb,
      runSearch Strat.heuristic tblDeep ["DT", "NN", "VBD"] "a" = (some bh, th) ∧
      generate "a" ["DT", "NN", "VBD"] "heuristic" gDeep = some (formatResult bh th) ∧
      (∃ m, Reach tblDeep ["DT", "NN", "VBD"] "a" m ∧ m.depth = 3 ∧ m.sentence = bh) ∧
      (∀ m, Reach tblDeep ["DT", "NN", "VBD"] "a" m → m.depth = 3 →
        m.sentence.percent ≤ bh.percent) ∧
      runSearch Strat.breadth_first tblDeep ["DT", "NN", "VBD"] "a" = (some bb, tb) ∧
      bb.percent = bh.percent :=
  C1_heuristic_optimal "a" ["DT", "NN", "VBD"] gDeep tblDeep rfl tblDeep_probs
    ⟨childNode ["DT", "NN", "VBD"]
        (childNode ["DT", "NN", "VBD"] (seedNode "a") ⟨"small", floatD "0.2"⟩)
        ⟨"ran", floatD "1.0"⟩,
      ReachFrom.step ⟨"ran", floatD "1.0"⟩
        (ReachFrom.step ⟨"small", floatD "0.2"⟩ (ReachFrom.refl _) (by decide)
          (List.mem_cons_of_mem _ (List.mem_singleton.mpr rfl)))
        (by decide) (List.mem_singleton.mpr rfl),
      rfl⟩

/-- C3: for every table whose probabilities lie in the unit interval and
every query admitting a complete chain, both exhaustive strategies
(`breadth_first` and `depth_first`) return a complete chain of maximum
cumulative probability, and the two optimal values agree. -/
theorem C3_exhaustive_optimal (startingWord : String) (spec : List String)
    (graph : String) (nexts : Nexts)
    (hparse : processInput graph = some nexts)
    (hp : ProbsIn01 nexts)
    (hex : ∃ m, Reach nexts spec startingWord m ∧ m.depth = spec.length) :
    ∃ bb tb bd td,
      runSearch Strat.breadth_first nexts spec startingWord = (some bb, tb) ∧
      runSearch Strat.depth_first nexts spec startingWord = (some bd, td) ∧
      generate startingWord spec "breadth_first" graph = some (formatResult bb tb) ∧
      generate startingWord spec "depth_first" graph = some (formatResult bd td) ∧
      (∃ m, Reach nexts spec startingWord m ∧ m.depth = spec.length ∧ m.sentence = bb) ∧
      (∀ m, Reach nexts spec startingWord m → m.depth = spec.length →
        m.sentence.percent ≤ bb.percent) ∧
      (∃ m, Reach nexts spec startingWord m ∧ m.depth = spec.length ∧ m.sentence = bd) ∧
      (∀ m, Reach nexts spec startingWord m → m.depth = spec.length →
        m.sentence.percent ≤ bd.percent) ∧
      bb.percent = bd.percent := by
  obtain ⟨bb, tb, hrb, hsoundb, hoptb⟩ :=
    runSearch_opt Strat.breadth_first nexts spec startingWord hp hex
  obtain ⟨bd, td, hrd, hsoundd, hoptd⟩ :=
    runSearch_opt Strat.depth_first nexts spec startingWord hp hex
  refine ⟨bb, tb, bd, td, hrb, hrd,
    generate_of_runSearch (by decide) hparse hrb,
    generate_of_runSearch (by decide) hparse hrd,
    hsoundb, hoptb, hsoundd, hoptd, ?_⟩
  obtain ⟨mb, hmb, hdb, hsb⟩ := hsoundb
  obtain ⟨md, hmd, hdd, hsd⟩ := hsoundd
  have h1 : mb.sentence.percent ≤ bd.percent := hoptd mb hmb hdb
  have h2 : md.sentence.percent ≤ bb.percent := hoptb md hmd hdd
  rw [hsb] at h1
  rw [hsd] at h2
  exact le_antisymm h1 h2

/-- Witness for C3 at the two-path fixture with cumulative probabilities
0.3 and 0.7. -/
theorem C3_witness :
    ∃ bb tb bd td,
      runSearch Strat.breadth_first tblTwoPaths ["A", "B", "C"] "s" = (some bb, tb) ∧
      runSearch Strat.depth_first tblTwoPaths ["A", "B", "C"] "s" = (some bd, td) ∧
      generate "s" ["A", "B", "C"] "breadth_first" gTwoPaths = some (formatResult bb tb) ∧
      generate "s" ["A", "B", "C"] "depth_first" gTwoPaths = some (formatResult bd td) ∧
      (∃ m, Reach tblTwoPaths ["A", "B", "C"] "s" m ∧ m.depth = 3 ∧ m.sentence = bb) ∧
      (∀ m, Reach tblTwoPaths ["A", "B", "C"] "s" m → m.depth = 3 →
        m.sentence.percent ≤ bb.percent) ∧
      (∃ m, Reach tblTwoPaths ["A", "B", "C"] "s" m ∧ m.depth = 3 ∧ m.sentence = bd) ∧
      (∀ m, Reach tblTwoPaths ["A", "B", "C"] "s" m → m.depth = 3 →
        m.sentence.percent ≤ bd.percent) ∧
      bb.percent = bd.percent :=
  C3_exhaustive_optimal "s" ["A", "B", "C"] gTwoPaths tblTwoPaths rfl tblTwoPaths_probs
    ⟨childNode ["A", "B", "C"]
        (childNode ["A", "B", "C"] (seedNode "s") ⟨"y", floatD "0.7"⟩)
        ⟨"f", floatD "1.0"⟩,
      ReachFrom.step ⟨"f", floatD "1.0"⟩
        (ReachFrom.step ⟨"y", floatD "0.7"⟩ (ReachFrom.refl _) (by decide)
          (List.mem_cons_of_mem _ (List.mem_singleton.mpr rfl)))
        (by decide) (List.mem_singleton.mpr rfl),
      rfl⟩

/-- Witness for C2: one pruned step under `heuristic` stops the loop with
the best result unchanged and the counter bumped once. -/
theorem C2_witness :
    searchLoopF Strat.heuristic [] ["A", "B", "C"] 1
        ⟨[⟨-(3 / 10 : ℚ), "x", 3, ⟨"s x", 3 / 10, 3⟩⟩], some ⟨"s y", 7 / 10, 3⟩, 5⟩ =
      some (some ⟨"s y", 7 / 10, 3⟩, 6) :=
  (searchLoopF_prune_step Strat.heuristic [] ["A", "B", "C"] 0
    [⟨-(3 / 10 : ℚ), "x", 3, ⟨"s x", 3 / 10, 3⟩⟩] (some ⟨"s y", 7 / 10, 3⟩) 5
    ⟨-(3 / 10 : ℚ), "x", 3, ⟨"s x", 3 / 10, 3⟩⟩ [] ⟨"s y", 7 / 10, 3⟩
    rfl rfl (by norm_num)).1 rfl

/-- C4: under `breadth_first` the reported node count equals the exact
size of the full reachable search tree (the seed plus every child ever
generated): FIFO order pops every node of depth below the target length
before any complete candidate exists, so pruning never removes any
expansion. -/
theorem C4_bfs_count (nexts : Nexts) (spec : List String) (startingWord : String) :
    (runSearch Strat.breadth_first nexts spec startingWord).2 =
      treeCount nexts spec startingWord 1 := by
  have hspec := runSearch_spec Strat.breadth_first nexts spec startingWord
  rcases hr : runSearch Strat.breadth_first nexts spec startingWord with ⟨bf, tf⟩
  rw [hr] at hspec
  have htwo : TwoLevels [seedNode startingWord] := by
    refine ⟨1, [seedNode startingWord], [], by simp, ?_, by simp⟩
    intro a ha
    simp only [List.mem_singleton] at ha
    subst ha
    rfl
  have hcount := searchLoopF_count nexts spec _ _ bf tf hspec htwo (by intro hf; cases hf)
  simpa [seedNode] using hcount

/-- C5: every child node generated during the search stores as its leading
field minus its own cumulative probability times HEURISTIC_BEST_GUESS
raised to the number of steps remaining below the child, and since the
guess is 1.0 this equals exactly the negated cumulative probability. -/
theorem C5_child_priority (nexts : Nexts) (spec : List String) (node child : Node)
    (h : child ∈ generateNextNodes nexts spec node) :
    child.weighting =
      -child.sentence.percent *
        HEURISTIC_BEST_GUESS ^ ((spec.length : ℤ) - ((child.depth : ℤ) + 1)) ∧
    child.weighting = -child.sentence.percent := by
  obtain ⟨info, hmi, rfl⟩ := generate_mem_elim h
  constructor
  · rw [childNode_weighting]
    simp [HEURISTIC_BEST_GUESS, one_zpow]
  · exact childNode_weighting spec node info

/-- Witness for C5 on a one-transition table. -/
theorem C5_witness :
    (childNode ["A", "B"] (seedNode "s") ⟨"x", 1 / 2⟩).weighting =
      -(childNode ["A", "B"] (seedNode "s") ⟨"x", 1 / 2⟩).sentence.percent *
        HEURISTIC_BEST_GUESS ^
          (((["A", "B"] : List String).length : ℤ) -
            (((childNode ["A", "B"] (seedNode "s") ⟨"x", 1 / 2⟩).depth : ℤ) + 1)) ∧
    (childNode ["A", "B"] (seedNode "s") ⟨"x", 1 / 2⟩).weighting =
      -(childNode ["A", "B"] (seedNode "s") ⟨"x", 1 / 2⟩).sentence.percent :=
  C5_child_priority [("s", [("A", [("B", [⟨"x", 1 / 2⟩])])])] ["A", "B"]
    (seedNode "s") _ (List.mem_singleton.mpr rfl)

/-- C6: a strategy whose lowercased form is not one of the three
recognised names makes `generate` return exactly the string
"invalid strategy" whatever the input text is — no parsing, no lookups —
while a recognised one proceeds with parse and search. -/
theorem C6_strategy_gate (startingWord : String) (spec : List String) (strategy : String) :
    (pyLower strategy ∉ (["breadth_first", "depth_first", "heuristic"] : List String) →
      ∀ graph, generate startingWord spec strategy graph = some "invalid strategy") ∧
    (pyLower strategy ∈ (["breadth_first", "depth_first", "heuristic"] : List String) →
      ∃ strat, stratOf (pyLower strategy) = some strat ∧
        ∀ graph, generate startingWord spec strategy graph =
          (processInput graph).bind (generateWith startingWord spec strat)) := by
  constructor
  · intro hno graph
    have hn : stratOf (pyLower strategy) = none := (stratOf_eq_none_iff _).mpr hno
    simp [generate, hn]
  · intro hyes
    obtain ⟨strat, hstrat⟩ := stratOf_of_mem hyes
    exact ⟨strat, hstrat, fun graph => by simp [generate, hstrat]⟩

/-- Witness for C6 with the strategy string BOGUS. -/
theorem C6_witness : generate "x" ["A"] "BOGUS" "" = some "invalid strategy" :=
  (C6_strategy_gate "x" ["A"] "BOGUS").1 (by decide) ""

/-- C7 (amended): a non-empty line with at least seven slash-separated
fields whose probability field is numeric text converting to a value q
makes the loader append the pair (field 3, q) to the list at key
[field 0][field 1][field 4] — fields 2 and 5 are never read, as the
result does not depend on them; insertion appends to the list at the
addressed key, creating the intermediate maps on first use; and the
record ben/NNP/0/ran/VBD/1/0.5 yields the entry ("ran", 0.5) at
["ben"]["NNP"]["VBD"]. -/
theorem C7_loader_record :
    (∀ (nexts : Nexts) (line : String) (f0 f1 f2 f3 f4 f5 f6 : String)
        (rest : List String) (q : ℚ),
      line ≠ "" → pySplit line '/' = [f0, f1, f2, f3, f4, f5, f6] ++ rest →
      float f6 = some q →
      processLine nexts line =
        some (insertNexts nexts ⟨f0, f1⟩ ⟨f3, f4⟩ ⟨f3, q⟩)) ∧
    (∀ (nexts : Nexts) (w1 w2 : InputWord) (info : NextInfo),
      lookupNexts (insertNexts nexts w1 w2 info) w1.word w1.type w2.type =
        lookupNexts nexts w1.word w1.type w2.type ++ [info]) ∧
    (∃ tbl, processInput "ben/NNP/0/ran/VBD/1/0.5" = some tbl ∧
      lookupNexts tbl "ben" "NNP" "VBD" = [⟨"ran", floatD "0.5"⟩]) ∧
    float "0.5" = some (1 / 2) := by
  refine ⟨?_, lookupNexts_insertNexts,
    ⟨insertNexts [] ⟨"ben", "NNP"⟩ ⟨"ran", "VBD"⟩ ⟨"ran", floatD "0.5"⟩, rfl, rfl⟩,
    float_eval_05⟩
  intro nexts line f0 f1 f2 f3 f4 f5 f6 rest q hne hsplit hq
  simp only [processLine, if_neg hne, hsplit]
  show (float f6).bind
      (fun percent => some (insertNexts nexts ⟨f0, f1⟩ ⟨f3, f4⟩ ⟨f3, percent⟩)) =
    some (insertNexts nexts ⟨f0, f1⟩ ⟨f3, f4⟩ ⟨f3, q⟩)
  rw [hq]
  rfl

/-- Witness for the amended C7 on the record from the claim. -/
theorem C7_witness :
    processLine [] "ben/NNP/0/ran/VBD/1/0.5" =
      some (insertNexts [] ⟨"ben", "NNP"⟩ ⟨"ran", "VBD"⟩ ⟨"ran", 1 / 2⟩) :=
  C7_loader_record.1 [] "ben/NNP/0/ran/VBD/1/0.5" "ben" "NNP" "0" "ran" "VBD" "1" "0.5" []
    (1 / 2) (by decide) rfl float_eval_05

/-- Counterexample for C7 as frozen: the non-empty seven-field line
a/b/c/d/e/f/zz has a probability field that is not numeric text, so the
loader faults (Python raises ValueError inside float()) and appends no
pair to any list, instead of appending (field 3, float(field 6)) as the
claim states for every such line. -/
theorem C7_counterexample :
    processLine [] "a/b/c/d/e/f/zz" = none ∧
    ∀ tbl : Nexts, processLine [] "a/b/c/d/e/f/zz" ≠ some tbl :=
  ⟨rfl, fun tbl h => Option.noConfusion
    ((rfl : (none : Option Nexts) = processLine [] "a/b/c/d/e/f/zz").trans h)⟩

/-- C8: with a recognised strategy and a parsed table, when no complete
chain is reachable the best value is never populated and formatting the
output faults (modelled by none); when one is reachable the output has
the exact quoted shape with the probability and the node count. -/
theorem C8_output_shape (startingWord : String) (spec : List String)
    (strategy graph : String) (strat : Strat) (nexts : Nexts)
    (hstrat : stratOf (pyLower strategy) = some strat)
    (hparse : processInput graph = some nexts) :
    ((¬ ∃ m, Reach nexts spec startingWord m ∧ spec.length ≤ m.depth) →
      generate startingWord spec strategy graph = none) ∧
    ((∃ m, Reach nexts spec startingWord m ∧ spec.length ≤ m.depth) →
      ∃ (b : Sentence) (total : ℕ), generate startingWord spec strategy graph =
        some ("\u0022" ++ b.string ++ "\u0022 with probability " ++ toString b.percent ++
          "\nTotal nodes considered: " ++ toString total)) := by
  constructor
  · intro hno
    have hL : 1 ≤ spec.length := by
      by_contra hcon
      exact hno ⟨seedNode startingWord, ReachFrom.refl _, by
        show spec.length ≤ 1
        omega⟩
    rcases hr : runSearch strat nexts spec startingWord with ⟨bf, tf⟩
    cases hbf : bf with
    | some b =>
      exfalso
      obtain ⟨m, hm, hd, -⟩ := runSearch_best_sound strat nexts spec startingWord hL b
        (by rw [hr]; simpa using hbf)
      exact hno ⟨m, hm, le_of_eq hd.symm⟩
    | none =>
      exact generate_of_runSearch_none hstrat hparse
        (show runSearch strat nexts spec startingWord = (none, tf) by rw [hr, hbf])
  · intro hex
    have hsome := runSearch_best_some strat nexts spec startingWord hex
    rcases hr : runSearch strat nexts spec startingWord with ⟨bf, tf⟩
    rw [hr] at hsome
    obtain ⟨b, hb⟩ := Option.isSome_iff_exists.mp (by simpa using hsome)
    refine ⟨b, tf, ?_⟩
    exact generate_of_runSearch hstrat hparse (by rw [hr, hb])

/-- Witness for C8 on the empty table, where no complete chain exists. -/
theorem C8_witness : generate "x" ["A", "B"] "heuristic" "" = none :=
  (C8_output_shape "x" ["A", "B"] "heuristic" "" Strat.heuristic [] (by decide) rfl).1
    (by
      rintro ⟨m, hm, hd⟩
      rw [reach_nil_eq hm] at hd
      exact absurd hd (by decide))

/-- C9: the loader skips exactly the empty lines before parsing, so text
with blank lines yields the same table as the text with them removed. -/
theorem C9_blank_lines :
    (∀ (lines : List String) (acc : Nexts),
      lines.foldlM processLine acc =
        (lines.filter (fun l => decide (l ≠ ""))).foldlM processLine acc) ∧
    (∀ text : String,
      processInput text =
        ((pySplit text '\n').filter (fun l => decide (l ≠ ""))).foldlM processLine []) ∧
    processInput "ben/NNP/0/ran/VBD/1/0.5\n\n" = processInput "ben/NNP/0/ran/VBD/1/0.5" := by
  refine ⟨foldlM_processLine_filter, ?_, rfl⟩
  intro text
  exact foldlM_processLine_filter (pySplit text '\n') []

/-- C10 (amended): for a length-one target sequence, a recognised strategy
and an input text the loader parses, the seed node is immediately the
complete candidate: the result is the starting word alone with
probability 1 and a node count of 1, whatever the table holds. -/
theorem C10_single_spec (startingWord c strategy graph : String)
    (strat : Strat) (nexts : Nexts)
    (hstrat : stratOf (pyLower strategy) = some strat)
    (hparse : processInput graph = some nexts) :
    runSearch strat nexts [c] startingWord = (some ⟨startingWord, 1, 1⟩, 1) ∧
    generate startingWord [c] strategy graph =
      some (formatResult ⟨startingWord, 1, 1⟩ 1) := by
  refine ⟨runSearch_single strat nexts c startingWord, ?_⟩
  exact generate_of_runSearch hstrat hparse (runSearch_single strat nexts c startingWord)

/-- Witness for the amended C10. -/
theorem C10_witness :
    runSearch Strat.heuristic [] ["A"] "x" = (some ⟨"x", 1, 1⟩, 1) ∧
    generate "x" ["A"] "heuristic" "" = some (formatResult ⟨"x", 1, 1⟩ 1) :=
  C10_single_spec "x" "A" "heuristic" "" Strat.heuristic [] (by decide) rfl

/-- Counterexample for C10 as frozen: on input text the loader cannot
parse, `generate` faults while parsing (before the search) instead of
returning the one-node result, so the claim fails for that input text. -/
theorem C10_counterexample :
    generate "x" ["A"] "heuristic" "/" = none ∧
    generate "x" ["A"] "heuristic" "/" ≠ some (formatResult ⟨"x", 1, 1⟩ 1) :=
  ⟨rfl, fun h => Option.noConfusion
    ((rfl : (none : Option String) = generate "x" ["A"] "heuristic" "/").trans h)⟩

end SentenceGen
